import Mathlib

/-!
Verification development for the mltable lazy-table pipeline described by the
repository's specification.  The repository's own Python file
(`sdk/python/using-mltable/quickstart/mltable-quickstart.ipynb`) only *calls*
the engine (`mltable.from_parquet_files`, `take_random_sample`, `filter`,
`drop_columns`, `extract_columns_from_partition_format`, `save`, `load`,
`to_pandas_dataframe`); the engine itself is not part of the repository, so the
definitions below model it from the specification, faithfully to the spec's
words, and the notebook's concrete calls are reproduced on top of that model.
-/

namespace MLT

/-- Modelled from the spec: declared column types of the engine (the repository
does not ship the engine, only the notebook calling it).  The spec's
`ConvertColumnTypes{mapping: map<string,Type>}` and partition-column inference
need integer, floating, string and boolean types. -/
inductive Ty where
  | int
  | float
  | string
  | bool
deriving DecidableEq

/-- Modelled from the spec: runtime values of the expression evaluator
(literals are "int, float, string, bool"); floating-point numbers are idealised
as rationals in this embedding. -/
inductive Value where
  | int (i : Int)
  | float (q : Rat)
  | str (s : String)
  | bool (b : Bool)
deriving DecidableEq

/-- Comparison operators of the expression grammar. -/
inductive CmpOp where
  | lt | le | gt | ge | eq | ne
deriving DecidableEq

/-- Boolean combinators of the expression grammar. -/
inductive LogicOp where
  | and | or
deriving DecidableEq

/-- Arithmetic operators of the expression grammar. -/
inductive ArithOp where
  | add | sub | mul | div
deriving DecidableEq

/-- Modelled from the spec: the closed expression grammar of §4.1 (the
evaluator's code is not in the repository).  An abstract syntax tree over
column references, literals, comparison/arithmetic/boolean operators. -/
inductive Expr where
  | lit (v : Value)
  | col (name : String)
  | cmp (op : CmpOp) (a b : Expr)
  | logic (op : LogicOp) (a b : Expr)
  | not (a : Expr)
  | arith (op : ArithOp) (a b : Expr)
deriving DecidableEq

/-- A path segment: one component of a slash-separated path, as characters. -/
abbrev Seg := List Char

/-- Modelled from the spec: a source pattern is a path template, stored as its
slash-split segments; a segment may contain the glob wildcard character. -/
abbrev Pattern := List Seg

/-- A resolved physical file reference, as its slash-split path segments. -/
abbrev FileRef := List Seg

/-- Modelled from the spec: a partition template is a sequence of path-segment
templates, each a literal segment text followed by one named capture
(for example the format `/puYear={year}/puMonth={month}` has two segment
templates).  Stored parsed: (literal text, capture name) per segment. -/
abbrev PartFormat := List (Seg × String)

/-- Modelled from the spec: the tagged step variants of §3 (the step model's
code is not in the repository). -/
inductive Step where
  | readFiles (patterns : List Pattern)
  | randomSample (probability : Rat) (seed : Option Int)
  | filter (predicate : Expr)
  | dropColumns (names : List String)
  | selectColumns (names : List String)
  | extractPartitionColumns (format : PartFormat)
  | convertColumnTypes (mapping : List (String × Ty))
deriving DecidableEq

/-- Modelled from the spec: the Table handle is an immutable ordered sequence
of steps (§3); the handle's code is not in the repository. -/
structure Table where
  steps : List Step
deriving DecidableEq

/-- Modelled from the spec: the error taxonomy of §7. -/
inductive Err where
  | patternError
  | noFilesMatched
  | columnNotFound (c : String)
  | typeMismatch
  | schemaError (c : String)
  | invalidArtifact (k : String)
  | artifactNotFound
  | badProbability
  | destinationExists
deriving DecidableEq

/-- Splits a character list into slash-separated segments. -/
def splitSegs : List Char → List Seg
  | [] => [[]]
  | c :: r =>
    if c = '/' then [] :: splitSegs r
    else
      match splitSegs r with
      | [] => [[c]]
      | s :: ss => (c :: s) :: ss

/-- Modelled from the spec: the table construction entrypoint accepts a list of
pattern strings and returns a new Table rooted at a `ReadFiles` step (§6). -/
def from_parquet_files (patterns : List String) : Table :=
  ⟨[Step.readFiles (patterns.map fun p => splitSegs p.data)]⟩

/-- Modelled from the spec: `takeRandomSample` validates its probability
structurally at call time — probability must lie in (0,1] — and on success
returns a new Table with a `RandomSample` step appended (§4.3, §8). -/
def Table.take_random_sample (t : Table) (probability : Rat) (seed : Option Int) :
    Except Err Table :=
  if probability ≤ 0 ∨ 1 < probability then .error .badProbability
  else .ok ⟨t.steps ++ [Step.randomSample probability seed]⟩

/-- Modelled from the spec: `filter` appends a `Filter` step; the predicate is
structurally valid by construction (it is already an `Expr`), and all
schema-dependent validation is deferred to materialization (§4.3). -/
def Table.filter (t : Table) (predicate : Expr) : Table :=
  ⟨t.steps ++ [Step.filter predicate]⟩

/-- Modelled from the spec: `dropColumns` appends a `DropColumns` step; no
schema validation happens at call time (§4.3). -/
def Table.drop_columns (t : Table) (names : List String) : Table :=
  ⟨t.steps ++ [Step.dropColumns names]⟩

/-- Modelled from the spec: `selectColumns` appends a `SelectColumns` step; no
schema validation happens at call time (§4.3). -/
def Table.select_columns (t : Table) (names : List String) : Table :=
  ⟨t.steps ++ [Step.selectColumns names]⟩

/-- Parses one partition-format path segment such as `puYear={year}` into its
literal text and capture name: the segment must end with a single
brace-delimited name. -/
def parseFormatSeg (s : Seg) : Option (Seg × String) :=
  match s.findIdx? (· = '{') with
  | none => none
  | some i =>
    let lit := s.take i
    let rest := s.drop (i + 1)
    match rest.getLast? with
    | some '}' => some (lit, String.mk rest.dropLast)
    | _ => none

/-- Modelled from the spec: parsing of a partition-format string into its
per-segment templates; empty leading segments (from the leading slash) are
skipped, and a malformed segment is a structural `PatternError` at call time. -/
def parseFormat (format : String) : Except Err PartFormat :=
  (splitSegs format.data).foldr
    (fun seg acc => do
      let parts ← acc
      if seg.isEmpty then .ok parts
      else
        match parseFormatSeg seg with
        | some p => .ok (p :: parts)
        | none => .error .patternError)
    (.ok [])

/-- Modelled from the spec: `extractColumnsFromPartitionFormat` validates the
format string structurally at call time and appends an
`ExtractPartitionColumns` step (§4.3). -/
def Table.extract_columns_from_partition_format (t : Table) (format : String) :
    Except Err Table :=
  match parseFormat format with
  | .ok f => .ok ⟨t.steps ++ [Step.extractPartitionColumns f]⟩
  | .error e => .error e

/-- Modelled from the spec: `convertColumnTypes` appends a
`ConvertColumnTypes` step; schema-dependent validation (column exists, type is
convertible) is deferred to materialization (§4.3). -/
def Table.convert_column_types (t : Table) (mapping : List (String × Ty)) : Table :=
  ⟨t.steps ++ [Step.convertColumnTypes mapping]⟩

/-! ### Decimal digits: printing and parsing

Shared by the plan serializer (integers in the artifact) and by
partition-column type inference (integer-literal detection). -/

/-- The character for one decimal digit. -/
def digitChar : Nat → Char
  | 0 => '0' | 1 => '1' | 2 => '2' | 3 => '3' | 4 => '4'
  | 5 => '5' | 6 => '6' | 7 => '7' | 8 => '8' | _ => '9'

/-- Numeric value of a digit character. -/
def digitVal (c : Char) : Nat := c.toNat - '0'.toNat

/-- Accumulator-style decimal printing of a positive natural number. -/
def natToCharsAux : Nat → List Char → List Char
  | 0, acc => acc
  | n + 1, acc => natToCharsAux ((n + 1) / 10) (digitChar ((n + 1) % 10) :: acc)

/-- Decimal representation of a natural number. -/
def natToChars (n : Nat) : List Char :=
  if n = 0 then ['0'] else natToCharsAux n []

/-- Splits a character list into its leading run of decimal digits and the
remainder. -/
def spanDigits : List Char → List Char × List Char
  | [] => ([], [])
  | c :: r =>
    if c.isDigit then
      let (a, b) := spanDigits r
      (c :: a, b)
    else ([], c :: r)

/-- Numeric value of a digit run (most significant digit first). -/
def natVal (ds : List Char) : Nat :=
  ds.foldl (fun a c => a * 10 + digitVal c) 0

/-- Parses a leading nonempty decimal-digit run as a natural number, returning
the remainder of the input. -/
def parseNatChars (cs : List Char) : Option (Nat × List Char) :=
  match spanDigits cs with
  | ([], _) => none
  | (ds, rest) => some (natVal ds, rest)

/-- Decimal representation of an integer (minus sign for negatives). -/
def intToChars (i : Int) : List Char :=
  if i < 0 then '-' :: natToChars i.natAbs else natToChars i.natAbs

/-- Parses a leading integer (optional minus sign, then digits). -/
def parseIntChars (cs : List Char) : Option (Int × List Char) :=
  match cs with
  | [] => none
  | c :: r =>
    if c = '-' then (parseNatChars r).map fun (n, rest) => (-(n : Int), rest)
    else (parseNatChars (c :: r)).map fun (n, rest) => ((n : Int), rest)

/-- Holds when the input does not begin with a decimal digit, so a digit run
printed in front of it is parsed back unchanged. -/
def noDigitHead : List Char → Prop
  | [] => True
  | c :: _ => c.isDigit = false

instance : DecidablePred noDigitHead := by
  intro cs
  cases cs with
  | nil => exact .isTrue trivial
  | cons c r => exact inferInstanceAs (Decidable (c.isDigit = false))

/-! ### Expression evaluator (spec §4.1) -/

/-- A row of data: a mapping from column name to typed value. -/
abbrev Row := List (String × Value)

/-- Numeric view of a value, widening integers to rationals. -/
def numView : Value → Option Rat
  | .int i => some (i : Rat)
  | .float q => some q
  | _ => none

/-- Comparison of two rationals under one comparison operator. -/
def ratCmp (op : CmpOp) (a b : Rat) : Bool :=
  match op with
  | .lt => decide (a < b)
  | .le => decide (a ≤ b)
  | .gt => decide (b < a)
  | .ge => decide (b ≤ a)
  | .eq => decide (a = b)
  | .ne => decide (a ≠ b)

/-- Comparison of two strings under one comparison operator (lexicographic). -/
def strCmp (op : CmpOp) (a b : String) : Bool :=
  match op with
  | .lt => decide (a < b)
  | .le => decide (a < b) || decide (a = b)
  | .gt => decide (b < a)
  | .ge => decide (b < a) || decide (a = b)
  | .eq => decide (a = b)
  | .ne => decide (a ≠ b)

/-- Modelled from the spec: comparison semantics of §4.1 — numeric comparisons
widen int to float, strings compare with strings, booleans admit only equality
tests, and any other combination is a `TypeMismatch` rather than a silent
coercion. -/
def cmpVal (op : CmpOp) (va vb : Value) : Except Err Value :=
  match va, vb with
  | .str a, .str b => .ok (.bool (strCmp op a b))
  | .bool a, .bool b =>
    match op with
    | .eq => .ok (.bool (a == b))
    | .ne => .ok (.bool (a != b))
    | _ => .error .typeMismatch
  | _, _ =>
    match numView va, numView vb with
    | some a, some b => .ok (.bool (ratCmp op a b))
    | _, _ => .error .typeMismatch

/-- Modelled from the spec: arithmetic of §4.1 on numeric values, with
int-to-float widening; any non-numeric operand is a `TypeMismatch`. -/
def arithVal (op : ArithOp) (va vb : Value) : Except Err Value :=
  match va, vb with
  | .int i, .int j =>
    match op with
    | .add => .ok (.int (i + j))
    | .sub => .ok (.int (i - j))
    | .mul => .ok (.int (i * j))
    | .div => .ok (.int (i / j))
  | _, _ =>
    match numView va, numView vb with
    | some a, some b =>
      match op with
      | .add => .ok (.float (a + b))
      | .sub => .ok (.float (a - b))
      | .mul => .ok (.float (a * b))
      | .div => .ok (.float (a / b))
    | _, _ => .error .typeMismatch

/-- Modelled from the spec: the pure per-row evaluator of §4.1.  Column lookup
fails with `ColumnNotFound` when the name is absent from the row; `and`/`or`
short-circuit, so the right operand of an already-decided combinator is never
evaluated. -/
def evaluate : Expr → Row → Except Err Value
  | .lit v, _ => .ok v
  | .col n, r =>
    match r.lookup n with
    | some v => .ok v
    | none => .error (.columnNotFound n)
  | .cmp op a b, r => do
    let va ← evaluate a r
    let vb ← evaluate b r
    cmpVal op va vb
  | .logic op a b, r => do
    let va ← evaluate a r
    match va, op with
    | .bool false, .and => .ok (.bool false)
    | .bool true, .or => .ok (.bool true)
    | .bool _, _ =>
      (do
        let vb ← evaluate b r
        match vb with
        | .bool c => .ok (.bool c)
        | _ => .error .typeMismatch)
    | _, _ => .error .typeMismatch
  | .not a, r => do
    let va ← evaluate a r
    match va with
    | .bool c => .ok (.bool !c)
    | _ => .error .typeMismatch
  | .arith op a b, r => do
    let va ← evaluate a r
    let vb ← evaluate b r
    arithVal op va vb

/-- The column names a predicate depends on, in left-to-right order. -/
def exprCols : Expr → List String
  | .lit _ => []
  | .col n => [n]
  | .cmp _ a b => exprCols a ++ exprCols b
  | .logic _ a b => exprCols a ++ exprCols b
  | .not a => exprCols a
  | .arith _ a b => exprCols a ++ exprCols b

/-! ### Plan serializer: document tree (spec §4.4)

The artifact is a YAML document; this embedding models the document tree
(strings, integers, booleans, sequences, mappings in flow style) together with
a text printer and a text parser, so serialization really goes down to
characters. -/

/-- Modelled from the spec: the artifact's document tree — a structured,
human-readable textual format's value space (§4.4, §6). -/
inductive Yaml where
  | str (s : String)
  | int (i : Int)
  | bool (b : Bool)
  | arr (items : List Yaml)
  | map (entries : List (String × Yaml))

/-- Escapes quote and backslash characters inside a quoted scalar. -/
def escapeChars : List Char → List Char
  | [] => []
  | c :: r =>
    if c = '"' ∨ c = '\\' then '\\' :: c :: escapeChars r
    else c :: escapeChars r

/-- Prints a quoted scalar. -/
def printQuoted (cs : List Char) : List Char :=
  '"' :: (escapeChars cs ++ ['"'])

mutual

/-- Modelled from the spec: the plan serializer's textual printer — a stable
flow-style document rendering, byte-identical for equal trees (§4.4). -/
def printYaml : Yaml → List Char
  | .str s => printQuoted s.data
  | .int i => intToChars i
  | .bool true => ['t', 'r', 'u', 'e']
  | .bool false => ['f', 'a', 'l', 's', 'e']
  | .arr xs => '[' :: (printItems xs ++ [']'])
  | .map es => '\x7b' :: (printEntries es ++ ['\x7d'])

/-- Prints sequence items separated by commas. -/
def printItems : List Yaml → List Char
  | [] => []
  | [x] => printYaml x
  | x :: y :: r => printYaml x ++ ',' :: printItems (y :: r)

/-- Prints mapping entries separated by commas. -/
def printEntries : List (String × Yaml) → List Char
  | [] => []
  | [(k, v)] => printQuoted k.data ++ ':' :: printYaml v
  | (k, v) :: e :: r => printQuoted k.data ++ ':' :: printYaml v ++ ',' :: printEntries (e :: r)

end

/-- Parses the body of a quoted scalar after its opening quote, undoing the
escaping, and returns the remainder after the closing quote. -/
def parseStrBody : List Char → Option (List Char × List Char)
  | [] => none
  | [c] => if c = '"' then some (([] : List Char), []) else none
  | c :: d :: r =>
    if c = '\\' then (parseStrBody r).map fun s => (d :: s.1, s.2)
    else if c = '"' then some (([] : List Char), d :: r)
    else (parseStrBody (d :: r)).map fun s => (c :: s.1, s.2)

mutual

/-- Modelled from the spec: the artifact text parser for one document value;
the fuel argument bounds recursion depth and is in practice the input length.
Returns the parsed value and the unconsumed remainder, or `none` on malformed
text. -/
def parseVal : Nat → List Char → Option (Yaml × List Char)
  | 0, _ => none
  | fuel + 1, cs =>
    match cs with
    | [] => none
    | c :: r =>
      if c = '"' then (parseStrBody r).map fun (s, rest) => (Yaml.str (String.mk s), rest)
      else if c = 't' then
        if r.take 3 = ['r', 'u', 'e'] then some (.bool true, r.drop 3) else none
      else if c = 'f' then
        if r.take 4 = ['a', 'l', 's', 'e'] then some (.bool false, r.drop 4) else none
      else if c = '[' then
        if r.head? = some ']' then some (.arr [], r.tail)
        else (parseItems fuel r).map fun (xs, rest) => (.arr xs, rest)
      else if c = '\x7b' then
        if r.head? = some '\x7d' then some (.map [], r.tail)
        else (parseEntries fuel r).map fun (es, rest) => (.map es, rest)
      else (parseIntChars cs).map fun (i, rest) => (.int i, rest)

/-- Parses one or more comma-separated items up to a closing bracket. -/
def parseItems : Nat → List Char → Option (List Yaml × List Char)
  | 0, _ => none
  | fuel + 1, cs =>
    match parseVal fuel cs with
    | some (v, ',' :: r2) => (parseItems fuel r2).map fun q => (v :: q.1, q.2)
    | some (v, ']' :: r2) => some ([v], r2)
    | _ => none

/-- Parses one mapping key: an opening quote, the quoted key, and the colon
separator, returning the key and the remainder. -/
def parseEntryKey : List Char → Option (String × List Char)
  | '"' :: r =>
    (match parseStrBody r with
     | some (k, ':' :: r2) => some (String.mk k, r2)
     | _ => none)
  | _ => none

/-- Parses one or more comma-separated key/value entries up to a closing
brace. -/
def parseEntries : Nat → List Char → Option (List (String × Yaml) × List Char)
  | 0, _ => none
  | fuel + 1, cs =>
    match parseEntryKey cs with
    | some (k, r2) =>
      (match parseVal fuel r2 with
       | some (v, ',' :: r4) => (parseEntries fuel r4).map fun q => ((k, v) :: q.1, q.2)
       | some (v, '\x7d' :: r4) => some ([(k, v)], r4)
       | _ => none)
    | none => none

end

/-! ### Plan serializer: steps to and from the document tree (spec §4.4) -/

/-- Name of a comparison operator in the artifact. -/
def cmpName : CmpOp → String
  | .lt => "lt" | .le => "le" | .gt => "gt" | .ge => "ge" | .eq => "eq" | .ne => "ne"

/-- Comparison operator from its artifact name. -/
def cmpOfName (s : String) : Option CmpOp :=
  if s = "lt" then some .lt else if s = "le" then some .le
  else if s = "gt" then some .gt else if s = "ge" then some .ge
  else if s = "eq" then some .eq else if s = "ne" then some .ne else none

/-- Name of a boolean combinator in the artifact. -/
def logicName : LogicOp → String
  | .and => "and" | .or => "or"

/-- Boolean combinator from its artifact name. -/
def logicOfName (s : String) : Option LogicOp :=
  if s = "and" then some .and else if s = "or" then some .or else none

/-- Name of an arithmetic operator in the artifact. -/
def arithName : ArithOp → String
  | .add => "add" | .sub => "sub" | .mul => "mul" | .div => "div"

/-- Arithmetic operator from its artifact name. -/
def arithOfName (s : String) : Option ArithOp :=
  if s = "add" then some .add else if s = "sub" then some .sub
  else if s = "mul" then some .mul else if s = "div" then some .div else none

/-- Name of a column type in the artifact. -/
def tyName : Ty → String
  | .int => "int" | .float => "float" | .string => "string" | .bool => "boolean"

/-- Column type from its artifact name. -/
def tyOfName (s : String) : Option Ty :=
  if s = "int" then some .int else if s = "float" then some .float
  else if s = "string" then some .string else if s = "boolean" then some .bool else none

/-- Error-propagating map over a list, aborting at the first failure. -/
def mapEx {α β ε : Type} (f : α → Except ε β) : List α → Except ε (List β)
  | [] => .ok []
  | a :: l =>
    match f a with
    | .ok b =>
      (match mapEx f l with
       | .ok bs => .ok (b :: bs)
       | .error e => .error e)
    | .error e => .error e

/-- Serializes a literal value into the document tree. -/
def yamlOfValue : Value → Yaml
  | .int i => .map [("int", .int i)]
  | .float q => .map [("float", .map [("num", .int q.num), ("den", .int (q.den : Int))])]
  | .str s => .map [("str", .str s)]
  | .bool b => .map [("bool", .bool b)]

/-- Modelled from the spec: deserialization of a literal value, rejecting a
record whose tag is unrecognized with `InvalidArtifact` naming it (§4.4). -/
def valueOfYaml : Yaml → Except Err Value
  | .map [(k, v)] =>
    if k = "int" then
      match v with
      | .int i => .ok (.int i)
      | _ => .error (.invalidArtifact k)
    else if k = "float" then
      match v with
      | .map [("num", .int n), ("den", .int d)] => .ok (.float (mkRat n d.toNat))
      | _ => .error (.invalidArtifact k)
    else if k = "str" then
      match v with
      | .str s => .ok (.str s)
      | _ => .error (.invalidArtifact k)
    else if k = "bool" then
      match v with
      | .bool b => .ok (.bool b)
      | _ => .error (.invalidArtifact k)
    else .error (.invalidArtifact k)
  | _ => .error (.invalidArtifact ("value"))

/-- Serializes a predicate into the document tree. -/
def yamlOfExpr : Expr → Yaml
  | .lit v => .map [("lit", yamlOfValue v)]
  | .col n => .map [("col", .str n)]
  | .cmp op a b => .map [("cmp", .str (cmpName op)), ("lhs", yamlOfExpr a), ("rhs", yamlOfExpr b)]
  | .logic op a b =>
    .map [("logic", .str (logicName op)), ("lhs", yamlOfExpr a), ("rhs", yamlOfExpr b)]
  | .not a => .map [("neg", yamlOfExpr a)]
  | .arith op a b =>
    .map [("arith", .str (arithName op)), ("lhs", yamlOfExpr a), ("rhs", yamlOfExpr b)]

/-- Modelled from the spec: deserialization of a predicate tree, rejecting
malformed or unrecognized records with `InvalidArtifact` (§4.4). -/
def exprOfYaml : Yaml → Except Err Expr
  | .map [("lit", v)] => (valueOfYaml v).map .lit
  | .map [("col", .str n)] => .ok (.col n)
  | .map [("cmp", .str o), ("lhs", a), ("rhs", b)] =>
    (match cmpOfName o with
     | some op =>
       (match exprOfYaml a with
        | .ok ea =>
          (match exprOfYaml b with
           | .ok eb => .ok (.cmp op ea eb)
           | .error e => .error e)
        | .error e => .error e)
     | none => .error (.invalidArtifact o))
  | .map [("logic", .str o), ("lhs", a), ("rhs", b)] =>
    (match logicOfName o with
     | some op =>
       (match exprOfYaml a with
        | .ok ea =>
          (match exprOfYaml b with
           | .ok eb => .ok (.logic op ea eb)
           | .error e => .error e)
        | .error e => .error e)
     | none => .error (.invalidArtifact o))
  | .map [("neg", a)] => (exprOfYaml a).map .not
  | .map [("arith", .str o), ("lhs", a), ("rhs", b)] =>
    (match arithOfName o with
     | some op =>
       (match exprOfYaml a with
        | .ok ea =>
          (match exprOfYaml b with
           | .ok eb => .ok (.arith op ea eb)
           | .error e => .error e)
        | .error e => .error e)
     | none => .error (.invalidArtifact o))
  | _ => .error (.invalidArtifact ("expression"))

/-- Serializes one source pattern (its slash-split segments) into the tree. -/
def yamlOfPattern (p : Pattern) : Yaml :=
  .arr (p.map fun s => .str (String.mk s))

/-- Deserializes one source pattern. -/
def patternOfYaml : Yaml → Except Err Pattern
  | .arr xs =>
    mapEx (fun y =>
      match y with
      | .str s => .ok s.data
      | _ => .error (.invalidArtifact ("pattern"))) xs
  | _ => .error (.invalidArtifact ("pattern"))

/-- Rejects any entry key outside the allowed set, naming the offending key. -/
def checkKeys (allowed : List String) (es : List (String × Yaml)) : Except Err Unit :=
  match es.find? fun e => !allowed.contains e.1 with
  | some e => .error (.invalidArtifact e.1)
  | none => .ok ()

/-- Serializes one step as a single-entry record tagged by the step kind. -/
def yamlOfStep : Step → Yaml
  | .readFiles pats =>
    .map [("read_files", .map [("patterns", .arr (pats.map yamlOfPattern))])]
  | .randomSample p seed =>
    .map [("take_random_sample", .map
      ([("probability", .map [("num", .int p.num), ("den", .int (p.den : Int))])] ++
        match seed with
        | none => []
        | some s => [("seed", .int s)]))]
  | .filter e => .map [("filter", yamlOfExpr e)]
  | .dropColumns ns => .map [("drop_columns", .arr (ns.map .str))]
  | .selectColumns ns => .map [("select_columns", .arr (ns.map .str))]
  | .extractPartitionColumns f =>
    .map [("extract_columns_from_partition_format", .arr (f.map fun e =>
      .map [("text", .str (String.mk e.1)), ("capture", .str e.2)]))]
  | .convertColumnTypes m =>
    .map [("convert_column_types", .arr (m.map fun e =>
      .map [("column", .str e.1), ("to_type", .str (tyName e.2))]))]

/-- Deserializes the argument record of a `take_random_sample` step: unknown
keys inside the recognized step are rejected, the probability is validated to
lie in (0,1], and the seed is optional. -/
def sampleOfYaml : Yaml → Except Err Step
  | .map es =>
    (match checkKeys ["probability", "seed"] es with
     | .error e => .error e
     | .ok _ =>
       match es.lookup "probability" with
       | some (.map [("num", .int n), ("den", .int d)]) =>
         let p := mkRat n d.toNat
         if 0 < p ∧ p ≤ 1 then
           match es.lookup "seed" with
           | none => .ok (.randomSample p none)
           | some (.int s) => .ok (.randomSample p (some s))
           | some _ => .error (.invalidArtifact ("seed"))
         else .error (.invalidArtifact ("probability"))
       | _ => .error (.invalidArtifact ("probability")))
  | _ => .error (.invalidArtifact ("take_random_sample"))

/-- Deserializes one column-conversion entry. -/
def convOfYaml : Yaml → Except Err (String × Ty)
  | .map [("column", .str n), ("to_type", .str t)] =>
    match tyOfName t with
    | some ty => .ok (n, ty)
    | none => .error (.invalidArtifact t)
  | _ => .error (.invalidArtifact ("convert_column_types"))

/-- Deserializes one partition-format segment template. -/
def fmtSegOfYaml : Yaml → Except Err (Seg × String)
  | .map [("text", .str l), ("capture", .str n)] => .ok (l.data, n)
  | _ => .error (.invalidArtifact ("extract_columns_from_partition_format"))

/-- Deserializes a list of column names. -/
def namesOfYaml (tag : String) : Yaml → Except Err (List String)
  | .arr xs =>
    mapEx (fun y =>
      match y with
      | .str s => .ok s
      | _ => .error (.invalidArtifact tag)) xs
  | _ => .error (.invalidArtifact tag)

/-- Modelled from the spec: deserialization of one step record — a
single-entry record whose key is the step kind; an unrecognized kind fails
with `InvalidArtifact` naming that key, and unknown keys inside a recognized
step are rejected (§4.4). -/
def stepOfYaml : Yaml → Except Err Step
  | .map [(k, args)] =>
    if k = "read_files" then
      match args with
      | .map es =>
        (match checkKeys ["patterns"] es with
         | .error e => .error e
         | .ok _ =>
           match es.lookup "patterns" with
           | some (.arr pats) =>
             (match mapEx patternOfYaml pats with
              | .ok ps => .ok (.readFiles ps)
              | .error e => .error e)
           | _ => .error (.invalidArtifact ("patterns")))
      | _ => .error (.invalidArtifact k)
    else if k = "take_random_sample" then sampleOfYaml args
    else if k = "filter" then (exprOfYaml args).map .filter
    else if k = "drop_columns" then (namesOfYaml k args).map .dropColumns
    else if k = "select_columns" then (namesOfYaml k args).map .selectColumns
    else if k = "extract_columns_from_partition_format" then
      match args with
      | .arr xs =>
        (match mapEx fmtSegOfYaml xs with
         | .ok f => .ok (.extractPartitionColumns f)
         | .error e => .error e)
      | _ => .error (.invalidArtifact k)
    else if k = "convert_column_types" then
      match args with
      | .arr xs =>
        (match mapEx convOfYaml xs with
         | .ok m => .ok (.convertColumnTypes m)
         | .error e => .error e)
      | _ => .error (.invalidArtifact k)
    else .error (.invalidArtifact k)
  | _ => .error (.invalidArtifact ("step"))

/-- Modelled from the spec: the serializer's document tree for a step list —
a top-level mapping with a format tag and the ordered step records (§4.4). -/
def serializeSteps (steps : List Step) : Yaml :=
  .map [("type", .str ("mltable")), ("steps", .arr (steps.map yamlOfStep))]

/-- Modelled from the spec: deserialization of the top-level document —
unknown top-level keys are tolerated (only the known keys are consulted),
while malformed step records fail with `InvalidArtifact` (§4.4). -/
def deserializeSteps : Yaml → Except Err (List Step)
  | .map es =>
    match es.lookup "steps" with
    | some (.arr xs) => mapEx stepOfYaml xs
    | some _ => .error (.invalidArtifact ("steps"))
    | none => .error (.invalidArtifact ("steps"))
  | _ => .error (.invalidArtifact ("document"))

/-- Modelled from the spec: `serialize(steps) -> text` (§4.4) — the artifact
text is the printed document tree. -/
def serialize (steps : List Step) : String :=
  String.mk (printYaml (serializeSteps steps))

/-- Modelled from the spec: `deserialize(text) -> steps | Error` (§4.4) — the
text is parsed into a document tree, which must be fully consumed, and the
tree is validated into a step list. -/
def deserialize (s : String) : Except Err (List Step) :=
  match parseVal (s.data.length + 1) s.data with
  | some (y, []) => deserializeSteps y
  | _ => .error (.invalidArtifact ("document"))

/-- A structurally valid ("constructible") step: any `RandomSample` step must
carry a probability in (0,1], which is what the construction-time validation
of `take_random_sample` guarantees. -/
def stepWF : Step → Prop
  | .randomSample p _ => 0 < p ∧ p ≤ 1
  | _ => True

instance : DecidablePred stepWF := by
  intro s
  cases s with
  | randomSample p seed => exact inferInstanceAs (Decidable (0 < p ∧ p ≤ 1))
  | readFiles ps => exact .isTrue trivial
  | filter e => exact .isTrue trivial
  | dropColumns ns => exact .isTrue trivial
  | selectColumns ns => exact .isTrue trivial
  | extractPartitionColumns f => exact .isTrue trivial
  | convertColumnTypes m => exact .isTrue trivial

/-- A constructible step list: every step is structurally valid. -/
def WFSteps (steps : List Step) : Prop := ∀ s ∈ steps, stepWF s

instance : DecidablePred WFSteps := fun steps =>
  inferInstanceAs (Decidable (∀ s ∈ steps, stepWF s))

/-! ### Source resolver (spec §4.2) -/

/-- Fuelled worker for glob matching; the fuel bounds recursion depth and is
in practice more than the combined input length. -/
def globMatchAux : Nat → Seg → Seg → Bool
  | 0, _, _ => false
  | fuel + 1, p, s =>
    match p with
    | [] => s.isEmpty
    | c :: pr =>
      if c = '*' then
        globMatchAux fuel pr s ||
          (match s with
           | [] => false
           | _ :: sr => globMatchAux fuel (c :: pr) sr)
      else
        match s with
        | [] => false
        | d :: sr => c = d && globMatchAux fuel pr sr

/-- Modelled from the spec: glob matching of one pattern segment against one
path segment — the wildcard character matches any run of characters within the
segment (a wildcard never crosses a slash, because matching is
per-segment). -/
def globMatch (p s : Seg) : Bool := globMatchAux (p.length + s.length + 1) p s

/-- Modelled from the spec: a pattern matches a path when they have the same
number of segments and each pattern segment glob-matches the corresponding
path segment (a wildcard matches one path component, §4.2). -/
def patMatch : Pattern → FileRef → Bool
  | [], [] => true
  | a :: ps, b :: fs => globMatch a b && patMatch ps fs
  | _, _ => false

/-- Modelled from the spec: the backing store — a fixed directory listing with
the rows each file holds, plus the files' common column schema (columnar files
are self-describing). -/
structure Store where
  schema : List (String × Ty)
  files : List (FileRef × List Row)

/-- The backing store's directory listing. -/
def listing (st : Store) : List FileRef := st.files.map (·.1)

/-- Lexicographic sorting of file references. -/
def sortLex (l : List FileRef) : List FileRef :=
  List.insertionSort (· ≤ ·) l

/-- Deduplication keeping the first occurrence of each element; the fuel
argument bounds the recursion and is in practice the list length. -/
def dedupFAux : Nat → List FileRef → List FileRef
  | 0, _ => []
  | _, [] => []
  | n + 1, a :: t => a :: dedupFAux n (t.filter (· ≠ a))

/-- Deduplication keeping the first occurrence of each element. -/
def dedupF (l : List FileRef) : List FileRef := dedupFAux l.length l

/-- Modelled from the spec: `resolve(patterns) -> ordered set of FileRef` —
for each pattern in order, all matching store paths in lexicographic order,
with the union deduplicated keeping first occurrences, so the result is
order-stable by (pattern index, lexicographic path) (§4.2). -/
def resolve (pats : List Pattern) (st : Store) : List FileRef :=
  dedupF ((pats.map fun p => sortLex ((listing st).filter (patMatch p))).flatten)

/-! ### Lazy execution engine (spec §4.5) -/

/-- Modelled from the spec: one step of the pseudo-random generator driving
per-row Bernoulli draws (a linear congruential generator in this model). -/
def lcgNext (s : Nat) : Nat := (s * 1103515245 + 12345) % 4294967296

/-- The Bernoulli draw: a uniform value in [0, 10^6) compared against the
sample probability. -/
def keepRow (p : Rat) (s : Nat) : Bool :=
  decide (((s % 1000000 : Nat) : Rat) < p * 1000000)

/-- Modelled from the spec: per-row Bernoulli sampling threading the generator
state through the row stream; surviving rows keep their order (§4.5). -/
def sampleGo (p : Rat) : Nat → List (FileRef × Row) → List (FileRef × Row)
  | _, [] => []
  | g, r :: rs =>
    let g2 := lcgNext g
    if keepRow p g2 then r :: sampleGo p g2 rs else sampleGo p g2 rs

/-- Modelled from the spec: the generator is seeded once per materialization —
from the step's fixed seed when present, otherwise from the ambient
(per-call, nondeterministic) environment value (§4.5). -/
def seedInit (seed : Option Int) (amb : Nat) : Nat :=
  match seed with
  | some s => s.natAbs
  | none => amb

/-- Intermediate state of a materialization pass: the visible schema and the
surviving rows, each tagged with its originating file reference. -/
structure PipeState where
  schema : List (String × Ty)
  rows : List (FileRef × Row)
deriving DecidableEq

/-- The names of a schema's columns. -/
def schemaNames (sc : List (String × Ty)) : List String := sc.map (·.1)

/-- Modelled from the spec: schema-dependent validation at materialization — a
step referencing a column absent from the current schema fails with
`SchemaError` naming the first missing column (§7). -/
def checkCols (cols : List String) (sc : List (String × Ty)) : Except Err Unit :=
  match cols.find? fun c => !(schemaNames sc).contains c with
  | some c => .error (.schemaError c)
  | none => .ok ()

/-- Modelled from the spec: filtering removes rows whose predicate evaluates
to false, keeps the order of surviving rows, and aborts the materialization on
the first evaluation error or non-boolean predicate value (§4.5). -/
def filterRows (e : Expr) : List (FileRef × Row) → Except Err (List (FileRef × Row))
  | [] => .ok []
  | fr :: rest =>
    match evaluate e fr.2 with
    | .ok (.bool true) => (filterRows e rest).map (fr :: ·)
    | .ok (.bool false) => filterRows e rest
    | .ok _ => .error .typeMismatch
    | .error er => .error er

/-- Removes the named columns from one row. -/
def dropRow (ns : List String) (r : Row) : Row :=
  r.filter fun e => !ns.contains e.1

/-- Modelled from the spec: `DropColumns` only changes the visible schema,
never the row count (§4.5). -/
def applyDrop (ns : List String) (s : PipeState) : PipeState :=
  { schema := s.schema.filter fun e => !ns.contains e.1,
    rows := s.rows.map fun fr => (fr.1, dropRow ns fr.2) }

/-- Projects one row onto the selected columns, in selection order. -/
def selectRow (ns : List String) (r : Row) : Row :=
  ns.filterMap fun n => (r.lookup n).map ((n, ·))

/-- Modelled from the spec: `SelectColumns` restricts the visible schema to
the selection, after validating that every selected column exists (§4.5). -/
def applySelect (ns : List String) (s : PipeState) : Except Err PipeState :=
  match checkCols ns s.schema with
  | .error e => .error e
  | .ok _ =>
    .ok { schema := ns.filterMap fun n => (s.schema.lookup n).map ((n, ·)),
          rows := s.rows.map fun fr => (fr.1, selectRow ns fr.2) }

/-- Matches the segment templates of a partition format against path segments
one-to-one, yielding each capture's raw string value. -/
def matchSegs : PartFormat → List Seg → Option (List (String × String))
  | [], [] => some []
  | e :: fr, seg :: sr =>
    if e.1.isPrefixOf seg then
      (matchSegs fr sr).map fun ps => (e.2, String.mk (seg.drop e.1.length)) :: ps
    else none
  | _, _ => none

/-- Modelled from the spec: partition extraction is resolved against the
matched path — the format's segment templates are aligned with the suffix of
the path's directory part (the path minus its file-name segment), and each
capture yields a (name, raw value) pair (§4.2, §3). -/
def matchFormat (f : PartFormat) (ref : FileRef) : Option (List (String × String)) :=
  let dirs := ref.dropLast
  if f.length ≤ dirs.length then matchSegs f (dirs.drop (dirs.length - f.length))
  else none

/-- Parses a string as an integer literal: optional sign, then digits, with
nothing left over. -/
def parseIntStr (s : String) : Option Int :=
  match parseIntChars s.data with
  | some (i, []) => some i
  | _ => none

/-- The value of one extracted partition column for one row, under the
column's inferred type. -/
def partValue (ty : Ty) (raw : String) : Value :=
  match ty with
  | .int =>
    (match parseIntStr raw with
     | some i => .int i
     | none => .str raw)
  | _ => .str raw

/-- Modelled from the spec: the type of a partition column is inferred from
the literal form across all resolved files — integer when every captured value
parses as an integer, string otherwise (§4.2). -/
def inferPartTy (caps : List (List (String × String))) (j : Nat) : Ty :=
  if caps.all fun ps =>
      match ps.get? j with
      | some e => (parseIntStr e.2).isSome
      | none => false
  then .int else .string

/-- Tags one row with its partition captures, failing when the path does not
fit the format. -/
def tagRow (f : PartFormat) (fr : FileRef × Row) :
    Except Err ((FileRef × Row) × List (String × String)) :=
  match matchFormat f fr.1 with
  | some ps => .ok (fr, ps)
  | none => .error Err.patternError

/-- Modelled from the spec: partition-column extraction adds columns derived
from each row's originating file reference, visible to all subsequent steps;
a row whose path does not fit the format aborts the materialization (§4.5). -/
def applyExtract (f : PartFormat) (s : PipeState) : Except Err PipeState :=
  match mapEx (tagRow f) s.rows with
  | .error e => .error e
  | .ok tagged =>
    let caps := tagged.map (·.2)
    let tys := (List.range f.length).map (inferPartTy caps)
    .ok { schema := s.schema ++ (f.zip tys).map fun e => (e.1.2, e.2),
          rows := tagged.map fun t =>
            (t.1.1, t.1.2 ++ (t.2.zip tys).map fun e => (e.1.1, partValue e.2 e.1.2)) }

/-- Modelled from the spec: conversion of one value to a declared type —
identity conversions, integer-to-float widening, and string-to-number parsing
are convertible; anything else is a `TypeMismatch` at materialization (§4.5). -/
def convertVal (ty : Ty) (v : Value) : Except Err Value :=
  match ty, v with
  | .int, .int i => .ok (.int i)
  | .float, .int i => .ok (.float (i : Rat))
  | .float, .float q => .ok (.float q)
  | .int, .str s =>
    (match parseIntStr s with
     | some i => .ok (.int i)
     | none => .error .typeMismatch)
  | .float, .str s =>
    (match parseIntStr s with
     | some i => .ok (.float (i : Rat))
     | none => .error .typeMismatch)
  | .string, .str s => .ok (.str s)
  | .bool, .bool b => .ok (.bool b)
  | _, _ => .error .typeMismatch

/-- Converts the mapped columns of one row. -/
def convertRow (m : List (String × Ty)) (r : Row) : Except Err Row :=
  mapEx (fun e =>
    match m.lookup e.1 with
    | some ty => (convertVal ty e.2).map ((e.1, ·))
    | none => .ok e) r

/-- Modelled from the spec: `ConvertColumnTypes` validates that the mapped
columns exist, then converts each row's mapped values, aborting on the first
failing conversion (§4.5). -/
def applyConvert (m : List (String × Ty)) (s : PipeState) : Except Err PipeState :=
  match checkCols (m.map (·.1)) s.schema with
  | .error e => .error e
  | .ok _ =>
    match mapEx (fun fr => (convertRow m fr.2).map ((fr.1, ·))) s.rows with
    | .error e => .error e
    | .ok rows =>
      .ok { schema := s.schema.map fun e => (e.1, (m.lookup e.1).getD e.2), rows := rows }

/-- Modelled from the spec: application of one step to the pass state, in
declaration order (§4.5).  `ReadFiles` resolves its patterns (zero matches
across all patterns combined is an error) and loads the matched files' rows,
each tagged with its file reference; the ambient value seeds only a seedless
sample step. -/
def applyStep (st : Store) (amb : Nat) (s : PipeState) : Step → Except Err PipeState
  | .readFiles pats =>
    let refs := resolve pats st
    if refs.isEmpty then .error .noFilesMatched
    else
      .ok { schema := st.schema,
            rows := refs.flatMap fun f => ((st.files.lookup f).getD []).map ((f, ·)) }
  | .randomSample p seed => .ok { s with rows := sampleGo p (seedInit seed amb) s.rows }
  | .filter e =>
    (match checkCols (exprCols e) s.schema with
     | .error er => .error er
     | .ok _ =>
       match filterRows e s.rows with
       | .ok rows => .ok { s with rows := rows }
       | .error er => .error er)
  | .dropColumns ns => .ok (applyDrop ns s)
  | .selectColumns ns => applySelect ns s
  | .extractPartitionColumns f => applyExtract f s
  | .convertColumnTypes m => applyConvert m s

/-- The output of execution: an ordered sequence of rows plus a schema. -/
structure MatTable where
  schema : List (String × Ty)
  rows : List Row
deriving DecidableEq

/-- Error-propagating left fold of the steps over the pass state. -/
def foldSteps (st : Store) (amb : Nat) : PipeState → List Step → Except Err PipeState
  | s, [] => .ok s
  | s, step :: rest =>
    match applyStep st amb s step with
    | .ok s2 => foldSteps st amb s2 rest
    | .error e => .error e

/-- Modelled from the spec: `materialize(table)` builds and runs a single
pass, applying each step in original declaration order, all-or-nothing (§4.5).
The `amb` argument models the per-call ambient entropy that seeds a seedless
sample step; everything else is a pure function of the table and store. -/
def materialize (t : Table) (st : Store) (amb : Nat) : Except Err MatTable :=
  (foldSteps st amb ⟨[], []⟩ t.steps).map fun s => ⟨s.schema, s.rows.map (·.2)⟩

/-! ### Save and load (spec §6) -/

/-- Modelled from the spec: the flat file-system collaborator — a set of
directories and a mapping from file path to text content.  The artifact is the
only file the loader touches (§6). -/
structure FS where
  dirs : List (List Char)
  files : List (List Char × String)

/-- Strips one trailing slash from a path, when present. -/
def stripSlash (p : List Char) : List Char :=
  if p.getLast? = some '/' then p.dropLast else p

/-- The well-known artifact file name, as a path suffix. -/
def mlTableFile : List Char := '/' :: 'M' :: 'L' :: 'T' :: 'a' :: 'b' :: 'l' :: 'e' :: []

/-- Modelled from the spec: `save` writes the artifact file — and only the
artifact — to the target directory under the well-known name `MLTable`,
creating the directory if needed, and fails with `DestinationExists` when an
artifact is already present (§6). -/
def Table.save (t : Table) (dir : String) (fs : FS) : Except Err FS :=
  let d := stripSlash dir.data
  let key := d ++ mlTableFile
  if (fs.files.lookup key).isSome then .error .destinationExists
  else
    .ok { dirs := if fs.dirs.contains d then fs.dirs else d :: fs.dirs,
          files := (key, serialize t.steps) :: fs.files }

/-- Modelled from the spec: `load` reads exactly the artifact file under the
given directory (a trailing slash is tolerated), validates it, and
reconstructs the Table; a missing artifact is `ArtifactNotFound` (§6). -/
def load (path : String) (fs : FS) : Except Err Table :=
  match fs.files.lookup (stripSlash path.data ++ mlTableFile) with
  | some text => (deserialize text).map Table.mk
  | none => .error .artifactNotFound

/-! ### The notebook's concrete pipeline (mltable-quickstart.ipynb, cell 3) -/

/-- The notebook's five yearly glob patterns (cell 3). -/
def nycPaths : List String :=
  ["wasbs://nyctlc@azureopendatastorage.blob.core.windows.net/green/puYear=2015/puMonth=*/*.parquet",
   "wasbs://nyctlc@azureopendatastorage.blob.core.windows.net/green/puYear=2016/puMonth=*/*.parquet",
   "wasbs://nyctlc@azureopendatastorage.blob.core.windows.net/green/puYear=2017/puMonth=*/*.parquet",
   "wasbs://nyctlc@azureopendatastorage.blob.core.windows.net/green/puYear=2018/puMonth=*/*.parquet",
   "wasbs://nyctlc@azureopendatastorage.blob.core.windows.net/green/puYear=2019/puMonth=*/*.parquet"]

/-- The notebook's filter predicate: trip distance greater than zero. -/
def nycPredicate : Expr := .cmp .gt (.col ("tripDistance")) (.lit (.int 0))

/-- The notebook's three dropped columns. -/
def nycDropped : List String := ["puLocationId", "doLocationId", "storeAndFwdFlag"]

/-- The notebook's partition format string. -/
def nycFormat : String := "/puYear={year}/puMonth={month}"

/-- The notebook's end-to-end chain (cell 3): construct from the five yearly
patterns, sample at probability 0.001 with seed 735, filter on trip distance,
drop three columns, extract the year and month partition columns. -/
def buildNyc : Except Err Table :=
  match (from_parquet_files nycPaths).take_random_sample (mkRat 1 1000) (some 735) with
  | .error e => .error e
  | .ok t1 =>
    match ((t1.filter nycPredicate).drop_columns nycDropped).extract_columns_from_partition_format
        nycFormat with
    | .error e => .error e
    | .ok t4 => .ok t4

/-! ### Lemmas: decimal digits -/

theorem digitVal_digitChar {d : Nat} (h : d < 10) : digitVal (digitChar d) = d := by
  interval_cases d <;> rfl

theorem isDigit_digitChar (d : Nat) : (digitChar d).isDigit = true := by
  rcases d with _ | _ | _ | _ | _ | _ | _ | _ | _ | n <;> rfl

theorem natToCharsAux_acc (n : Nat) (acc : List Char) :
    natToCharsAux n acc = natToCharsAux n [] ++ acc := by
  induction n using Nat.strong_induction_on generalizing acc with
  | _ n ih =>
    cases n with
    | zero => simp [natToCharsAux]
    | succ m =>
      have hd : (m + 1) / 10 < m + 1 := Nat.div_lt_self (Nat.succ_pos m) (by omega)
      rw [natToCharsAux, natToCharsAux, ih _ hd, ih _ hd [digitChar ((m + 1) % 10)]]
      simp

theorem natToChars_ne_nil (n : Nat) : natToChars n ≠ [] := by
  unfold natToChars
  split
  · simp
  · next h =>
    cases n with
    | zero => exact absurd rfl h
    | succ m =>
      rw [natToCharsAux, natToCharsAux_acc]
      simp

theorem natToChars_digits (n : Nat) : ∀ c ∈ natToChars n, c.isDigit = true := by
  induction n using Nat.strong_induction_on with
  | _ n ih =>
    intro c hc
    unfold natToChars at hc
    split at hc
    · simp at hc
      simp [hc]
    · next h =>
      cases n with
      | zero => exact absurd rfl h
      | succ m =>
        rw [natToCharsAux, natToCharsAux_acc] at hc
        rcases List.mem_append.mp hc with h1 | h2
        · by_cases hq : (m + 1) / 10 = 0
          · rw [hq] at h1
            simp [natToCharsAux] at h1
          · have hd : (m + 1) / 10 < m + 1 := Nat.div_lt_self (Nat.succ_pos m) (by omega)
            have : c ∈ natToChars ((m + 1) / 10) := by
              unfold natToChars
              simp [hq, h1]
            exact ih _ hd c this
        · simp at h2
          simp [h2, isDigit_digitChar]

theorem natVal_append_digit (xs : List Char) (c : Char) :
    natVal (xs ++ [c]) = natVal xs * 10 + digitVal c := by
  simp [natVal, List.foldl_append]

theorem natVal_natToChars (n : Nat) : natVal (natToChars n) = n := by
  induction n using Nat.strong_induction_on with
  | _ n ih =>
    cases n with
    | zero => rfl
    | succ m =>
      have hd : (m + 1) / 10 < m + 1 := Nat.div_lt_self (Nat.succ_pos m) (by omega)
      have hsplit : natToChars (m + 1) = natToChars ((m + 1) / 10) ++ [digitChar ((m + 1) % 10)]
          ∨ ((m + 1) / 10 = 0 ∧ natToChars (m + 1) = [digitChar ((m + 1) % 10)]) := by
        by_cases hq : (m + 1) / 10 = 0
        · right
          refine ⟨hq, ?_⟩
          unfold natToChars
          rw [if_neg (by omega), natToCharsAux, natToCharsAux_acc, hq]
          simp [natToCharsAux]
        · left
          unfold natToChars
          rw [if_neg (by omega), natToCharsAux, natToCharsAux_acc, if_neg hq]
      have hmod : (m + 1) % 10 < 10 := Nat.mod_lt _ (by omega)
      rcases hsplit with h | ⟨hq, h⟩
      · rw [h, natVal_append_digit, ih _ hd, digitVal_digitChar hmod]
        omega
      · rw [h]
        have : natVal [digitChar ((m + 1) % 10)] = digitVal (digitChar ((m + 1) % 10)) := by
          simp [natVal]
        rw [this, digitVal_digitChar hmod]
        omega

theorem noDigitHead_cons {c : Char} {l : List Char} :
    noDigitHead (c :: l) ↔ c.isDigit = false := Iff.rfl

theorem spanDigits_append {ds rest : List Char} (h1 : ∀ c ∈ ds, c.isDigit = true)
    (h2 : noDigitHead rest) : spanDigits (ds ++ rest) = (ds, rest) := by
  induction ds with
  | nil =>
    cases rest with
    | nil => rfl
    | cons c r =>
      rw [noDigitHead_cons] at h2
      simp [spanDigits, h2]
  | cons d ds ih =>
    have hd : d.isDigit = true := h1 d (by simp)
    have ihh : spanDigits (ds ++ rest) = (ds, rest) := ih fun c hc => h1 c (by simp [hc])
    simp [spanDigits, hd, ihh]

theorem parseNatChars_print (n : Nat) (rest : List Char) (h : noDigitHead rest) :
    parseNatChars (natToChars n ++ rest) = some (n, rest) := by
  have hspan : spanDigits (natToChars n ++ rest) = (natToChars n, rest) :=
    spanDigits_append (natToChars_digits n) h
  unfold parseNatChars
  rw [hspan]
  cases hns : natToChars n with
  | nil => exact absurd hns (natToChars_ne_nil n)
  | cons c t =>
    have : natVal (c :: t) = n := by rw [← hns, natVal_natToChars]
    simp [this]

theorem digit_ne_of {c : Char} (x : Char) (h : c.isDigit = true) (hx : x.isDigit = false) :
    c ≠ x := by
  rintro rfl
  rw [h] at hx
  exact Bool.noConfusion hx

theorem parseIntChars_print (i : Int) (rest : List Char) (h : noDigitHead rest) :
    parseIntChars (intToChars i ++ rest) = some (i, rest) := by
  by_cases hi : i < 0
  · rw [intToChars, if_pos hi]
    rw [List.cons_append, parseIntChars, if_pos (rfl : ('-' : Char) = '-')]
    rw [parseNatChars_print _ _ h]
    have hxa : (-(i.natAbs : Int)) = i := by omega
    simp only [Option.map_some']
    rw [hxa]
  · rw [intToChars, if_neg hi]
    cases hns : natToChars i.natAbs with
    | nil => exact absurd hns (natToChars_ne_nil _)
    | cons c t =>
      have hcdig : c.isDigit = true := natToChars_digits i.natAbs c (by rw [hns]; simp)
      have hne : c ≠ '-' := digit_ne_of '-' hcdig (by decide)
      simp only [List.cons_append, parseIntChars, if_neg hne]
      rw [← List.cons_append, ← hns, parseNatChars_print _ _ h]
      have hxa : ((i.natAbs : Int)) = i := by omega
      simp only [Option.map_some']
      rw [hxa]

/-! ### Lemmas: quoted scalars and printed document heads -/

theorem parseStrBody_cons {c : Char} (hq : c ≠ '"') (hb : c ≠ '\\') (X : List Char)
    (hX : X ≠ []) :
    parseStrBody (c :: X) = (parseStrBody X).map fun s => (c :: s.1, s.2) := by
  cases X with
  | nil => exact absurd rfl hX
  | cons d r => rw [parseStrBody, if_neg hb, if_neg hq]

theorem parseStrBody_escape (s rest : List Char) :
    parseStrBody (escapeChars s ++ '"' :: rest) = some (s, rest) := by
  induction s with
  | nil =>
    cases rest with
    | nil => rfl
    | cons x xs => rfl
  | cons c r ih =>
    by_cases hc : c = '"' ∨ c = '\\'
    · rw [escapeChars, if_pos hc]
      simp only [List.cons_append]
      rw [parseStrBody, if_pos (rfl : ('\\' : Char) = '\\'), ih]
      rfl
    · push_neg at hc
      rw [escapeChars, if_neg (by tauto)]
      simp only [List.cons_append]
      rw [parseStrBody_cons hc.1 hc.2 _ (by simp), ih]
      rfl

theorem intToChars_ne_nil (i : Int) : intToChars i ≠ [] := by
  unfold intToChars
  split
  · simp
  · exact natToChars_ne_nil _

theorem printYaml_length_pos (y : Yaml) : 0 < (printYaml y).length := by
  cases y with
  | str s => simp [printYaml, printQuoted]
  | int i =>
    rw [printYaml]
    exact List.length_pos.mpr (intToChars_ne_nil i)
  | bool b => cases b <;> simp [printYaml]
  | arr xs => simp [printYaml]
  | map es => simp [printYaml]

theorem printYaml_head (y : Yaml) :
    ∃ c t, printYaml y = c :: t ∧ c ≠ ']' ∧ c ≠ '\x7d' := by
  cases y with
  | str s => exact ⟨'"', _, by rw [printYaml]; rfl, by decide, by decide⟩
  | bool b =>
    cases b with
    | true => exact ⟨'t', _, by rw [printYaml], by decide, by decide⟩
    | false => exact ⟨'f', _, by rw [printYaml], by decide, by decide⟩
  | arr xs => exact ⟨'[', _, by rw [printYaml], by decide, by decide⟩
  | map es => exact ⟨'\x7b', _, by rw [printYaml], by decide, by decide⟩
  | int i =>
    rw [printYaml]
    by_cases hi : i < 0
    · exact ⟨'-', _, by rw [intToChars, if_pos hi], by decide, by decide⟩
    · cases hns : natToChars i.natAbs with
      | nil => exact absurd hns (natToChars_ne_nil _)
      | cons c t =>
        have hcdig : c.isDigit = true := natToChars_digits i.natAbs c (by rw [hns]; simp)
        exact ⟨c, t, by rw [intToChars, if_neg hi, hns],
          digit_ne_of ']' hcdig (by decide), digit_ne_of '\x7d' hcdig (by decide)⟩

theorem printItems_cons_ex (x : Yaml) (xs : List Yaml) :
    ∃ d, printItems (x :: xs) = printYaml x ++ d := by
  cases xs with
  | nil => exact ⟨[], by rw [printItems]; simp⟩
  | cons y ys => exact ⟨_, by rw [printItems]⟩

theorem printEntries_cons_ex (k : String) (v : Yaml) (es : List (String × Yaml)) :
    ∃ d, printEntries ((k, v) :: es) = '"' :: d := by
  cases es with
  | nil => exact ⟨_, by rw [printEntries, printQuoted]; rfl⟩
  | cons e es' => exact ⟨_, by rw [printEntries, printQuoted]; rfl⟩

/-! ### Lemmas: head dispatch of the document parser -/

theorem parseVal_quote (f : Nat) (r : List Char) :
    parseVal (f + 1) ('"' :: r) =
      (parseStrBody r).map fun p => (Yaml.str (String.mk p.1), p.2) := by
  simp only [parseVal]
  rfl

theorem parseVal_true (f : Nat) (r : List Char) :
    parseVal (f + 1) ('t' :: 'r' :: 'u' :: 'e' :: r) = some (.bool true, r) := by
  simp only [parseVal]
  rfl

theorem parseVal_false (f : Nat) (r : List Char) :
    parseVal (f + 1) ('f' :: 'a' :: 'l' :: 's' :: 'e' :: r) = some (.bool false, r) := by
  simp only [parseVal]
  rfl

theorem parseVal_arrNil (f : Nat) (r : List Char) :
    parseVal (f + 1) ('[' :: ']' :: r) = some (.arr [], r) := by
  simp only [parseVal]
  rfl

theorem parseVal_arrCons (f : Nat) {c : Char} (t : List Char) (h1 : c ≠ ']') :
    parseVal (f + 1) ('[' :: c :: t) =
      (parseItems f (c :: t)).map fun p => (Yaml.arr p.1, p.2) := by
  simp only [parseVal, List.head?_cons, Option.some.injEq]
  rw [if_neg h1]
  rfl

theorem parseVal_mapNil (f : Nat) (r : List Char) :
    parseVal (f + 1) ('\x7b' :: '\x7d' :: r) = some (.map [], r) := by
  simp only [parseVal]
  rfl

theorem parseVal_mapCons (f : Nat) {c : Char} (t : List Char) (h1 : c ≠ '\x7d') :
    parseVal (f + 1) ('\x7b' :: c :: t) =
      (parseEntries f (c :: t)).map fun p => (Yaml.map p.1, p.2) := by
  simp only [parseVal, List.head?_cons, Option.some.injEq]
  rw [if_neg h1]
  rfl

theorem parseVal_minus (f : Nat) (t : List Char) :
    parseVal (f + 1) ('-' :: t) =
      (parseIntChars ('-' :: t)).map fun p => (Yaml.int p.1, p.2) := by
  simp only [parseVal]
  rfl

theorem parseVal_digit (f : Nat) {c : Char} (t : List Char) (h : c.isDigit = true) :
    parseVal (f + 1) (c :: t) =
      (parseIntChars (c :: t)).map fun p => (Yaml.int p.1, p.2) := by
  simp only [parseVal]
  rw [if_neg (digit_ne_of '"' h (by decide)), if_neg (digit_ne_of 't' h (by decide)),
    if_neg (digit_ne_of 'f' h (by decide)), if_neg (digit_ne_of '[' h (by decide)),
    if_neg (digit_ne_of '\x7b' h (by decide))]

theorem parseItems_more (f : Nat) (cs : List Char) {v : Yaml} {R : List Char}
    (h : parseVal f cs = some (v, ',' :: R)) :
    parseItems (f + 1) cs = (parseItems f R).map fun q => (v :: q.1, q.2) := by
  simp only [parseItems, h]

theorem parseItems_last (f : Nat) (cs : List Char) {v : Yaml} {R : List Char}
    (h : parseVal f cs = some (v, ']' :: R)) :
    parseItems (f + 1) cs = some ([v], R) := by
  simp only [parseItems, h]

theorem parseEntryKey_print (k : String) (X : List Char) :
    parseEntryKey (printQuoted k.data ++ ':' :: X) = some (k, X) := by
  rw [printQuoted]
  simp only [List.cons_append, List.append_assoc, List.singleton_append]
  simp only [parseEntryKey]
  rw [parseStrBody_escape]
  rfl

theorem parseEntries_more (f : Nat) (cs : List Char) {k : String} {r2 : List Char}
    {v : Yaml} {R : List Char} (hk : parseEntryKey cs = some (k, r2))
    (hv : parseVal f r2 = some (v, ',' :: R)) :
    parseEntries (f + 1) cs = (parseEntries f R).map fun q => ((k, v) :: q.1, q.2) := by
  simp only [parseEntries, hk, hv]

theorem parseEntries_last (f : Nat) (cs : List Char) {k : String} {r2 : List Char}
    {v : Yaml} {R : List Char} (hk : parseEntryKey cs = some (k, r2))
    (hv : parseVal f r2 = some (v, '\x7d' :: R)) :
    parseEntries (f + 1) cs = some ([(k, v)], R) := by
  simp only [parseEntries, hk, hv]

/-! ### The print/parse round trip over the whole document space -/

theorem parse_print_master (fuel : Nat) :
    (∀ y rest, (printYaml y).length < fuel → noDigitHead rest →
        parseVal fuel (printYaml y ++ rest) = some (y, rest)) ∧
    (∀ xs rest, xs ≠ [] → (printItems xs).length + 1 < fuel →
        parseItems fuel (printItems xs ++ ']' :: rest) = some (xs, rest)) ∧
    (∀ es rest, es ≠ [] → (printEntries es).length + 1 < fuel →
        parseEntries fuel (printEntries es ++ '\x7d' :: rest) = some (es, rest)) := by
  induction fuel using Nat.strong_induction_on with
  | _ fuel ih =>
    match fuel with
    | 0 =>
      exact ⟨fun y rest h _ => absurd h (by omega), fun xs rest _ h => absurd h (by omega),
        fun es rest _ h => absurd h (by omega)⟩
    | f + 1 =>
      obtain ⟨ihV, ihI, ihE⟩ := ih f (Nat.lt_succ_self f)
      refine ⟨?_, ?_, ?_⟩
      · intro y rest hlen hnd
        match y with
        | .str s =>
          rw [printYaml, printQuoted]
          simp only [List.cons_append, List.append_assoc, List.singleton_append]
          rw [parseVal_quote, parseStrBody_escape]
          rfl
        | .int i =>
          rw [printYaml]
          by_cases hi : i < 0
          · have hform : intToChars i ++ rest = '-' :: (natToChars i.natAbs ++ rest) := by
              rw [intToChars, if_pos hi, List.cons_append]
            rw [hform, parseVal_minus, ← hform, parseIntChars_print i rest hnd]
            rfl
          · cases hns : natToChars i.natAbs with
            | nil => exact absurd hns (natToChars_ne_nil _)
            | cons c t =>
              have hcdig : c.isDigit = true := natToChars_digits i.natAbs c (by rw [hns]; simp)
              have hform : intToChars i ++ rest = c :: (t ++ rest) := by
                rw [intToChars, if_neg hi, hns, List.cons_append]
              rw [hform, parseVal_digit f _ hcdig, ← hform, parseIntChars_print i rest hnd]
              rfl
        | .bool b =>
          cases b with
          | true =>
            rw [printYaml]
            simp only [List.cons_append, List.nil_append]
            rw [parseVal_true]
          | false =>
            rw [printYaml]
            simp only [List.cons_append, List.nil_append]
            rw [parseVal_false]
        | .arr xs =>
          rw [printYaml] at hlen ⊢
          cases xs with
          | nil =>
            rw [printItems]
            simp only [List.nil_append, List.cons_append, List.singleton_append]
            rw [parseVal_arrNil]
          | cons x xs2 =>
            simp only [List.length_cons, List.length_append] at hlen
            obtain ⟨d, hd⟩ := printItems_cons_ex x xs2
            obtain ⟨c, t, hct, hne1, hne2⟩ := printYaml_head x
            have hform : ('[' :: (printItems (x :: xs2) ++ [']'])) ++ rest
                = '[' :: c :: (t ++ d ++ ']' :: rest) := by
              rw [hd, hct]
              simp
            have hback : c :: (t ++ d ++ ']' :: rest) = printItems (x :: xs2) ++ ']' :: rest := by
              rw [hd, hct]
              simp
            rw [hform, parseVal_arrCons f _ hne1, hback,
              ihI (x :: xs2) rest (by simp) (by omega)]
            rfl
        | .map es =>
          rw [printYaml] at hlen ⊢
          cases es with
          | nil =>
            rw [printEntries]
            simp only [List.nil_append, List.cons_append, List.singleton_append]
            rw [parseVal_mapNil]
          | cons kv es2 =>
            obtain ⟨k, v⟩ := kv
            simp only [List.length_cons, List.length_append] at hlen
            obtain ⟨d, hd⟩ := printEntries_cons_ex k v es2
            have hform : ('\x7b' :: (printEntries ((k, v) :: es2) ++ ['\x7d'])) ++ rest
                = '\x7b' :: '"' :: (d ++ '\x7d' :: rest) := by
              rw [hd]
              simp
            have hback : '"' :: (d ++ '\x7d' :: rest)
                = printEntries ((k, v) :: es2) ++ '\x7d' :: rest := by
              rw [hd]
              simp
            rw [hform, parseVal_mapCons f _ (by decide), hback,
              ihE ((k, v) :: es2) rest (by simp) (by omega)]
            rfl
      · intro xs rest hne hlen
        match xs with
        | [] => exact absurd rfl hne
        | [x] =>
          rw [printItems] at hlen ⊢
          exact parseItems_last f _ (ihV x (']' :: rest) (by omega) (by exact rfl))
        | x :: y :: ys =>
          rw [printItems] at hlen ⊢
          have hpos := printYaml_length_pos x
          simp only [List.length_append, List.length_cons] at hlen
          simp only [List.append_assoc, List.cons_append]
          rw [parseItems_more f _
            (ihV x (',' :: (printItems (y :: ys) ++ ']' :: rest)) (by omega) (by exact rfl))]
          rw [ihI (y :: ys) rest (by simp) (by omega)]
          rfl
      · intro es rest hne hlen
        match es with
        | [] => exact absurd rfl hne
        | [(k, v)] =>
          rw [printEntries] at hlen ⊢
          have hq : 0 < (printQuoted k.data).length := by simp [printQuoted]
          simp only [List.length_append, List.length_cons] at hlen
          simp only [List.append_assoc, List.cons_append]
          exact parseEntries_last f _ (parseEntryKey_print k _)
            (ihV v ('\x7d' :: rest) (by omega) (by exact rfl))
        | (k, v) :: e2 :: es2 =>
          rw [printEntries] at hlen ⊢
          have hq : 0 < (printQuoted k.data).length := by simp [printQuoted]
          have hpos := printYaml_length_pos v
          simp only [List.length_append, List.length_cons] at hlen
          simp only [List.append_assoc, List.cons_append]
          rw [parseEntries_more f _ (parseEntryKey_print k _)
            (ihV v (',' :: (printEntries (e2 :: es2) ++ '\x7d' :: rest)) (by omega) (by exact rfl))]
          rw [ihE (e2 :: es2) rest (by simp) (by omega)]
          rfl

/-- Full-document round trip at the character level: parsing a printed
document with enough fuel consumes exactly the print and returns the document.
-/
theorem parseVal_printYaml (y : Yaml) (fuel : Nat) (h : (printYaml y).length < fuel) :
    parseVal fuel (printYaml y) = some (y, []) := by
  have := (parse_print_master fuel).1 y [] h trivial
  simpa using this

/-! ### Round trip of the step serializer over the document tree -/

theorem data_mk (cs : List Char) : (String.mk cs).data = cs := rfl

theorem mapEx_map_ok {α γ β ε : Type} (h : α → γ) (f : γ → Except ε β) (g : α → β)
    (l : List α) (H : ∀ a ∈ l, f (h a) = .ok (g a)) :
    mapEx f (l.map h) = .ok (l.map g) := by
  induction l with
  | nil => rfl
  | cons a l ih =>
    have ha := H a (by simp)
    have hrest := ih fun a ha => H a (by simp [ha])
    simp only [List.map_cons, mapEx, ha, hrest]

theorem mapEx_map_id {α γ ε : Type} (h : α → γ) (f : γ → Except ε α)
    (l : List α) (H : ∀ a ∈ l, f (h a) = .ok a) :
    mapEx f (l.map h) = .ok l := by
  have := mapEx_map_ok h f id l (by simpa using H)
  simpa using this

theorem valueOfYaml_roundtrip (v : Value) : valueOfYaml (yamlOfValue v) = .ok v := by
  cases v with
  | int i => rfl
  | str s => rfl
  | bool b => rfl
  | float q =>
    show Except.ok (Value.float (mkRat q.num (((q.den : Int)).toNat))) = .ok (.float q)
    simp [Rat.mkRat_self]

theorem cmpOfName_cmpName (op : CmpOp) : cmpOfName (cmpName op) = some op := by
  cases op <;> rfl

theorem logicOfName_logicName (op : LogicOp) : logicOfName (logicName op) = some op := by
  cases op <;> rfl

theorem arithOfName_arithName (op : ArithOp) : arithOfName (arithName op) = some op := by
  cases op <;> rfl

theorem tyOfName_tyName (ty : Ty) : tyOfName (tyName ty) = some ty := by
  cases ty <;> rfl

theorem exprOfYaml_roundtrip (e : Expr) : exprOfYaml (yamlOfExpr e) = .ok e := by
  induction e with
  | lit v =>
    show (valueOfYaml (yamlOfValue v)).map Expr.lit = .ok (.lit v)
    rw [valueOfYaml_roundtrip]
    rfl
  | col n => rfl
  | cmp op a b iha ihb =>
    show (match cmpOfName (cmpName op) with
          | some op2 =>
            (match exprOfYaml (yamlOfExpr a) with
             | .ok ea =>
               (match exprOfYaml (yamlOfExpr b) with
                | .ok eb => Except.ok (Expr.cmp op2 ea eb)
                | .error er => .error er)
             | .error er => .error er)
          | none => .error (.invalidArtifact (cmpName op))) = .ok (.cmp op a b)
    rw [cmpOfName_cmpName, iha, ihb]
  | logic op a b iha ihb =>
    show (match logicOfName (logicName op) with
          | some op2 =>
            (match exprOfYaml (yamlOfExpr a) with
             | .ok ea =>
               (match exprOfYaml (yamlOfExpr b) with
                | .ok eb => Except.ok (Expr.logic op2 ea eb)
                | .error er => .error er)
             | .error er => .error er)
          | none => .error (.invalidArtifact (logicName op))) = .ok (.logic op a b)
    rw [logicOfName_logicName, iha, ihb]
  | not a iha =>
    show (exprOfYaml (yamlOfExpr a)).map Expr.not = .ok (.not a)
    rw [iha]
    rfl
  | arith op a b iha ihb =>
    show (match arithOfName (arithName op) with
          | some op2 =>
            (match exprOfYaml (yamlOfExpr a) with
             | .ok ea =>
               (match exprOfYaml (yamlOfExpr b) with
                | .ok eb => Except.ok (Expr.arith op2 ea eb)
                | .error er => .error er)
             | .error er => .error er)
          | none => .error (.invalidArtifact (arithName op))) = .ok (.arith op a b)
    rw [arithOfName_arithName, iha, ihb]

theorem patternOfYaml_roundtrip (p : Pattern) : patternOfYaml (yamlOfPattern p) = .ok p := by
  show mapEx _ (p.map fun s => Yaml.str (String.mk s)) = .ok p
  exact mapEx_map_id _ _ p fun a ha => rfl

theorem stepOfYaml_roundtrip (s : Step) (h : stepWF s) : stepOfYaml (yamlOfStep s) = .ok s := by
  cases s with
  | readFiles pats =>
    show (match mapEx patternOfYaml (pats.map yamlOfPattern) with
          | .ok ps => Except.ok (Step.readFiles ps)
          | .error er => .error er) = .ok (.readFiles pats)
    rw [mapEx_map_id yamlOfPattern patternOfYaml pats fun p hp => patternOfYaml_roundtrip p]
  | randomSample p seed =>
    have hP : mkRat p.num (((p.den : Int)).toNat) = p := by simp [Rat.mkRat_self]
    cases seed with
    | none =>
      show (if 0 < mkRat p.num (((p.den : Int)).toNat) ∧ mkRat p.num (((p.den : Int)).toNat) ≤ 1
            then Except.ok (Step.randomSample (mkRat p.num (((p.den : Int)).toNat)) none)
            else Except.error (Err.invalidArtifact ("probability")))
          = .ok (.randomSample p none)
      rw [hP, if_pos (show 0 < p ∧ p ≤ 1 from h)]
    | some sd =>
      show (if 0 < mkRat p.num (((p.den : Int)).toNat) ∧ mkRat p.num (((p.den : Int)).toNat) ≤ 1
            then Except.ok (Step.randomSample (mkRat p.num (((p.den : Int)).toNat)) (some sd))
            else Except.error (Err.invalidArtifact ("probability")))
          = .ok (.randomSample p (some sd))
      rw [hP, if_pos (show 0 < p ∧ p ≤ 1 from h)]
  | filter e =>
    show (exprOfYaml (yamlOfExpr e)).map Step.filter = .ok (.filter e)
    rw [exprOfYaml_roundtrip]
    rfl
  | dropColumns ns =>
    show (mapEx _ (ns.map Yaml.str)).map Step.dropColumns = .ok (.dropColumns ns)
    rw [mapEx_map_id Yaml.str _ ns fun a ha => rfl]
    rfl
  | selectColumns ns =>
    show (mapEx _ (ns.map Yaml.str)).map Step.selectColumns = .ok (.selectColumns ns)
    rw [mapEx_map_id Yaml.str _ ns fun a ha => rfl]
    rfl
  | extractPartitionColumns f =>
    show (match mapEx fmtSegOfYaml (f.map fun e =>
            Yaml.map [("text", .str (String.mk e.1)), ("capture", .str e.2)]) with
          | .ok f2 => Except.ok (Step.extractPartitionColumns f2)
          | .error er => .error er) = .ok (.extractPartitionColumns f)
    rw [mapEx_map_id (fun e => Yaml.map [("text", Yaml.str (String.mk e.1)), ("capture", Yaml.str e.2)])
      fmtSegOfYaml f fun a ha => by obtain ⟨l, n⟩ := a; rfl]
  | convertColumnTypes m =>
    show (match mapEx convOfYaml (m.map fun e =>
            Yaml.map [("column", .str e.1), ("to_type", .str (tyName e.2))]) with
          | .ok m2 => Except.ok (Step.convertColumnTypes m2)
          | .error er => .error er) = .ok (.convertColumnTypes m)
    rw [mapEx_map_id (fun e => Yaml.map [("column", Yaml.str e.1), ("to_type", Yaml.str (tyName e.2))])
      convOfYaml m fun a ha => by
        obtain ⟨n, ty⟩ := a
        cases ty <;> rfl]

theorem deserializeSteps_roundtrip (steps : List Step) (h : WFSteps steps) :
    deserializeSteps (serializeSteps steps) = .ok steps := by
  show mapEx stepOfYaml (steps.map yamlOfStep) = .ok steps
  exact mapEx_map_id yamlOfStep stepOfYaml steps fun s hs => stepOfYaml_roundtrip s (h s hs)

/-- The full serializer round trip at the text level. -/
theorem deserialize_serialize (steps : List Step) (h : WFSteps steps) :
    deserialize (serialize steps) = .ok steps := by
  simp only [serialize, deserialize, data_mk]
  rw [parseVal_printYaml (serializeSteps steps) _ (by omega)]
  exact deserializeSteps_roundtrip steps h

/-! ### Lemmas: save and load -/

theorem stripSlash_no (p : List Char) (h : p.getLast? ≠ some '/') : stripSlash p = p := by
  rw [stripSlash, if_neg h]

theorem stripSlash_concat (p : List Char) : stripSlash (p ++ ['/']) = p := by
  rw [stripSlash, if_pos (List.getLast?_concat p), List.dropLast_concat]

theorem save_spec (t : Table) (dir : String) (fs : FS)
    (hfree : fs.files.lookup (stripSlash dir.data ++ mlTableFile) = none) :
    Table.save t dir fs = .ok
      { dirs := if fs.dirs.contains (stripSlash dir.data) then fs.dirs
                else stripSlash dir.data :: fs.dirs,
        files := (stripSlash dir.data ++ mlTableFile, serialize t.steps) :: fs.files } := by
  simp [Table.save, hfree]

theorem load_after_save (t : Table) (dir : String) (fs : FS) (hwf : WFSteps t.steps)
    (hfree : fs.files.lookup (stripSlash dir.data ++ mlTableFile) = none) :
    ∃ fs2, Table.save t dir fs = .ok fs2 ∧
      fs2.files.lookup (stripSlash dir.data ++ mlTableFile) = some (serialize t.steps) ∧
      stripSlash dir.data ∈ fs2.dirs ∧
      ∀ path : String, stripSlash path.data = stripSlash dir.data → load path fs2 = .ok t := by
  refine ⟨_, save_spec t dir fs hfree, ?_, ?_, ?_⟩
  · simp [List.lookup_cons]
  · by_cases hm : stripSlash dir.data ∈ fs.dirs <;> simp [hm]
  · intro path hpath
    rw [load, hpath]
    simp only [List.lookup_cons, beq_self_eq_true]
    rw [deserialize_serialize t.steps hwf]
    rfl

/-! ### Lemmas: sampling and ambient-seed independence -/

/-- A step whose behaviour does not depend on the ambient per-call entropy: any
step except a seedless `RandomSample`. -/
def seeded : Step → Prop
  | .randomSample _ none => False
  | _ => True

instance : DecidablePred seeded := by
  intro s
  unfold seeded
  cases s with
  | randomSample p seed =>
    cases seed with
    | none => exact .isFalse id
    | some k => exact .isTrue trivial
  | readFiles ps => exact .isTrue trivial
  | filter e => exact .isTrue trivial
  | dropColumns ns => exact .isTrue trivial
  | selectColumns ns => exact .isTrue trivial
  | extractPartitionColumns f => exact .isTrue trivial
  | convertColumnTypes m => exact .isTrue trivial

theorem applyStep_amb {st : Store} {a1 a2 : Nat} (s : PipeState) (step : Step)
    (h : seeded step) : applyStep st a1 s step = applyStep st a2 s step := by
  cases step with
  | randomSample p seed =>
    cases seed with
    | none => exact absurd h id
    | some k => rfl
  | readFiles ps => rfl
  | filter e => rfl
  | dropColumns ns => rfl
  | selectColumns ns => rfl
  | extractPartitionColumns f => rfl
  | convertColumnTypes m => rfl

theorem foldSteps_amb {st : Store} {a1 a2 : Nat} (steps : List Step)
    (h : ∀ s ∈ steps, seeded s) (s0 : PipeState) :
    foldSteps st a1 s0 steps = foldSteps st a2 s0 steps := by
  induction steps generalizing s0 with
  | nil => rfl
  | cons step rest ih =>
    rw [foldSteps, foldSteps, applyStep_amb s0 step (h step (by simp))]
    cases applyStep st a2 s0 step with
    | ok s2 => exact ih (fun s hs => h s (by simp [hs])) s2
    | error e => rfl

theorem foldSteps_append {st : Store} {amb : Nat} (l1 l2 : List Step) (s0 : PipeState) :
    foldSteps st amb s0 (l1 ++ l2) =
      (match foldSteps st amb s0 l1 with
       | .ok s1 => foldSteps st amb s1 l2
       | .error e => .error e) := by
  induction l1 generalizing s0 with
  | nil => rfl
  | cons step rest ih =>
    rw [List.cons_append, foldSteps, foldSteps]
    cases applyStep st amb s0 step with
    | ok s2 => exact ih s2
    | error e => rfl

theorem keepRow_one (g : Nat) : keepRow 1 g = true := by
  unfold keepRow
  rw [decide_eq_true_iff]
  have hm : g % 1000000 < 1000000 := Nat.mod_lt _ (by norm_num)
  calc ((g % 1000000 : Nat) : Rat) < ((1000000 : Nat) : Rat) := by exact_mod_cast hm
    _ = 1 * 1000000 := by norm_num

theorem sampleGo_one (g : Nat) (rows : List (FileRef × Row)) :
    sampleGo 1 g rows = rows := by
  induction rows generalizing g with
  | nil => rfl
  | cons r rs ih => simp [sampleGo, keepRow_one, ih]

theorem applyStep_sample_one (st : Store) (amb : Nat) (s : PipeState) (seed : Option Int) :
    applyStep st amb s (.randomSample 1 seed) = .ok s := by
  simp [applyStep, sampleGo_one]

/-! ### Lemmas: construction-time validation preserves constructibility -/

theorem WFSteps_append {l1 l2 : List Step} (h1 : WFSteps l1) (h2 : WFSteps l2) :
    WFSteps (l1 ++ l2) := fun s hs => (List.mem_append.mp hs).elim (h1 s) (h2 s)

theorem WFSteps_single {s : Step} (h : stepWF s) : WFSteps [s] := by
  intro x hx
  simp at hx
  rw [hx]
  exact h

theorem WFSteps_from_parquet (ps : List String) : WFSteps (from_parquet_files ps).steps := by
  intro s hs
  simp [from_parquet_files] at hs
  rw [hs]
  trivial

theorem take_random_sample_ok {t t' : Table} {p : Rat} {seed : Option Int}
    (hok : t.take_random_sample p seed = .ok t') :
    (0 < p ∧ p ≤ 1) ∧ t' = ⟨t.steps ++ [Step.randomSample p seed]⟩ := by
  unfold Table.take_random_sample at hok
  split at hok
  · exact absurd hok (by simp)
  · next hcond =>
    push_neg at hcond
    injection hok with h2
    exact ⟨hcond, h2.symm⟩

theorem extract_ok {t t' : Table} {fmt : String}
    (hok : t.extract_columns_from_partition_format fmt = .ok t') :
    ∃ f, parseFormat fmt = .ok f ∧ t' = ⟨t.steps ++ [Step.extractPartitionColumns f]⟩ := by
  unfold Table.extract_columns_from_partition_format at hok
  cases hf : parseFormat fmt with
  | error e =>
    rw [hf] at hok
    exact absurd hok (by simp)
  | ok f =>
    rw [hf] at hok
    injection hok with h2
    exact ⟨f, rfl, h2.symm⟩

theorem buildNyc_WF : ∀ t : Table, buildNyc = .ok t → WFSteps t.steps := by
  intro t h
  unfold buildNyc at h
  split at h
  · exact absurd h (by simp)
  · next t1 hs =>
    split at h
    · exact absurd h (by simp)
    · next t4 hx =>
      injection h with h4
      subst h4
      obtain ⟨⟨hp0, hp1⟩, ht1⟩ := take_random_sample_ok hs
      obtain ⟨f, hf, ht4⟩ := extract_ok hx
      subst ht1 ht4
      refine WFSteps_append (WFSteps_append (WFSteps_append (WFSteps_append
        (WFSteps_from_parquet nycPaths) (WFSteps_single ⟨hp0, hp1⟩)) ?_) ?_) ?_
      · exact WFSteps_single trivial
      · exact WFSteps_single trivial
      · exact WFSteps_single trivial

/-! ### Lemmas: deserializer tolerance and rejection -/

theorem lookup_cons_ne {k k2 : String} (v : Yaml) (es : List (String × Yaml)) (h : k2 ≠ k) :
    List.lookup k2 ((k, v) :: es) = List.lookup k2 es := by
  rw [List.lookup_cons]
  have hb : (k2 == k) = false := beq_eq_false_iff_ne.mpr h
  simp [hb]

theorem deserializeSteps_extra_key (k : String) (v : Yaml) (es : List (String × Yaml))
    (hk : k ≠ "steps") :
    deserializeSteps (.map ((k, v) :: es)) = deserializeSteps (.map es) := by
  simp only [deserializeSteps]
  rw [lookup_cons_ne v es (Ne.symm (Ne.symm hk)).symm]

theorem deserialize_print (doc : Yaml) :
    deserialize (String.mk (printYaml doc)) = deserializeSteps doc := by
  simp only [deserialize, data_mk]
  rw [parseVal_printYaml doc _ (by omega)]

theorem stepOfYaml_unknown (k : String) (args : Yaml)
    (h1 : k ≠ "read_files") (h2 : k ≠ "take_random_sample") (h3 : k ≠ "filter")
    (h4 : k ≠ "drop_columns") (h5 : k ≠ "select_columns")
    (h6 : k ≠ "extract_columns_from_partition_format") (h7 : k ≠ "convert_column_types") :
    stepOfYaml (.map [(k, args)]) = .error (.invalidArtifact k) := by
  simp only [stepOfYaml]
  rw [if_neg h1, if_neg h2, if_neg h3, if_neg h4, if_neg h5, if_neg h6, if_neg h7]

theorem find?_unknown (allowed : List String) (es : List (String × Yaml)) (k : String) (v : Yaml)
    (hes : ∀ e ∈ es, e.1 ∈ allowed) (hk : k ∉ allowed) :
    (es ++ [(k, v)]).find? (fun e => !allowed.contains e.1) = some (k, v) := by
  induction es with
  | nil =>
    have hk2 : (!allowed.contains k) = true := by simp [hk]
    simp only [List.nil_append, List.find?, hk2]
  | cons e es ih =>
    have he : (!allowed.contains e.1) = false := by simp [hes e (by simp)]
    have ihh := ih fun x hx => hes x (by simp [hx])
    rw [List.cons_append, List.find?_cons]
    simp only [he]
    exact ihh

theorem checkKeys_unknown (allowed : List String) (es : List (String × Yaml)) (k : String)
    (v : Yaml) (hes : ∀ e ∈ es, e.1 ∈ allowed) (hk : k ∉ allowed) :
    checkKeys allowed (es ++ [(k, v)]) = .error (.invalidArtifact k) := by
  unfold checkKeys
  rw [find?_unknown allowed es k v hes hk]

theorem sampleOfYaml_unknown_key (es : List (String × Yaml)) (k : String) (v : Yaml)
    (hes : ∀ e ∈ es, e.1 ∈ (["probability", "seed"] : List String))
    (hk : k ∉ (["probability", "seed"] : List String)) :
    sampleOfYaml (.map (es ++ [(k, v)])) = .error (.invalidArtifact k) := by
  simp only [sampleOfYaml]
  rw [checkKeys_unknown _ _ _ _ hes hk]

theorem deserializeSteps_unknown_kind (k : String) (args : Yaml)
    (h1 : k ≠ "read_files") (h2 : k ≠ "take_random_sample") (h3 : k ≠ "filter")
    (h4 : k ≠ "drop_columns") (h5 : k ≠ "select_columns")
    (h6 : k ≠ "extract_columns_from_partition_format") (h7 : k ≠ "convert_column_types") :
    deserializeSteps (.map [("steps", .arr [.map [(k, args)]])])
      = .error (.invalidArtifact k) := by
  show mapEx stepOfYaml [.map [(k, args)]] = .error (.invalidArtifact k)
  simp only [mapEx]
  rw [stepOfYaml_unknown k args h1 h2 h3 h4 h5 h6 h7]

/-! ### Lemmas: source resolution order and deduplication -/

/-- The first pattern index matching a file, the primary sort key of the
resolver's output. -/
def firstPatIdx (ps : List Pattern) (x : FileRef) : Nat :=
  ps.findIdx fun p => patMatch p x

/-- The resolver's output order: strictly increasing in (pattern index,
lexicographic path). -/
def keyLT (ps : List Pattern) (a b : FileRef) : Prop :=
  firstPatIdx ps a < firstPatIdx ps b ∨ (firstPatIdx ps a = firstPatIdx ps b ∧ a < b)

theorem dedupFAux_fuel : ∀ (n : Nat) (m : Nat) (l : List FileRef), l.length ≤ n →
    l.length ≤ m → dedupFAux n l = dedupFAux m l := by
  intro n
  induction n with
  | zero =>
    intro m l h1 h2
    have : l = [] := List.length_eq_zero.mp (Nat.le_zero.mp h1)
    subst this
    cases m <;> rfl
  | succ n ih =>
    intro m l h1 h2
    cases l with
    | nil => cases m <;> rfl
    | cons a t =>
      cases m with
      | zero => simp at h2
      | succ m =>
        rw [dedupFAux, dedupFAux]
        have hf1 : (t.filter (· ≠ a)).length ≤ n :=
          le_trans (List.length_filter_le _ _) (Nat.le_of_succ_le_succ h1)
        have hf2 : (t.filter (· ≠ a)).length ≤ m :=
          le_trans (List.length_filter_le _ _) (Nat.le_of_succ_le_succ h2)
        rw [ih m _ hf1 hf2]

theorem dedupF_nil : dedupF [] = [] := rfl

theorem dedupF_cons (a : FileRef) (t : List FileRef) :
    dedupF (a :: t) = a :: dedupF (t.filter (· ≠ a)) := by
  unfold dedupF
  rw [show (a :: t).length = t.length + 1 from rfl, dedupFAux]
  rw [dedupFAux_fuel t.length (t.filter (· ≠ a)).length _ (List.length_filter_le _ _)
    (le_refl _)]

theorem dedupF_sublist_aux : ∀ (n : Nat) (l : List FileRef), l.length ≤ n →
    (dedupF l).Sublist l := by
  intro n
  induction n with
  | zero =>
    intro l hlen
    have : l = [] := List.length_eq_zero.mp (Nat.le_zero.mp hlen)
    subst this
    simp [dedupF_nil]
  | succ n ih =>
    intro l hlen
    cases l with
    | nil => simp [dedupF_nil]
    | cons a t =>
      rw [dedupF_cons]
      refine List.Sublist.cons₂ a ?_
      have hle : (t.filter (· ≠ a)).length ≤ n :=
        le_trans (List.length_filter_le _ _) (Nat.le_of_succ_le_succ hlen)
      exact (ih _ hle).trans (List.filter_sublist t)

theorem dedupF_sublist (l : List FileRef) : (dedupF l).Sublist l :=
  dedupF_sublist_aux l.length l (le_refl _)

theorem mem_dedupF {x : FileRef} {l : List FileRef} (h : x ∈ dedupF l) : x ∈ l :=
  (dedupF_sublist l).mem h

theorem dedupF_nodup_aux : ∀ (n : Nat) (l : List FileRef), l.length ≤ n →
    (dedupF l).Nodup := by
  intro n
  induction n with
  | zero =>
    intro l hlen
    have : l = [] := List.length_eq_zero.mp (Nat.le_zero.mp hlen)
    subst this
    simp [dedupF_nil]
  | succ n ih =>
    intro l hlen
    cases l with
    | nil => simp [dedupF_nil]
    | cons a t =>
      rw [dedupF_cons]
      have hle : (t.filter (· ≠ a)).length ≤ n :=
        le_trans (List.length_filter_le _ _) (Nat.le_of_succ_le_succ hlen)
      refine List.nodup_cons.mpr ⟨?_, ih _ hle⟩
      intro hmem
      have := List.mem_filter.mp (mem_dedupF hmem)
      simp at this

theorem dedupF_nodup (l : List FileRef) : (dedupF l).Nodup :=
  dedupF_nodup_aux l.length l (le_refl _)

theorem filter_ne_not_mem (a : FileRef) (xs ys : List FileRef) :
    (ys.filter (· ≠ a)).filter (fun y => decide (y ∉ xs.filter (· ≠ a)))
      = ys.filter fun y => decide (y ∉ a :: xs) := by
  rw [List.filter_filter]
  apply List.filter_congr
  intro y hy
  by_cases h1 : y = a
  · subst h1
    simp
  · simp [h1, List.mem_filter]

theorem dedupF_append : ∀ (n : Nat) (xs ys : List FileRef), xs.length ≤ n →
    dedupF (xs ++ ys) = dedupF xs ++ dedupF (ys.filter fun y => decide (y ∉ xs)) := by
  intro n
  induction n with
  | zero =>
    intro xs ys hlen
    have hx : xs = [] := List.length_eq_zero.mp (Nat.le_zero.mp hlen)
    subst hx
    simp [List.not_mem_nil, dedupF_nil]
  | succ n ih =>
    intro xs ys hlen
    cases xs with
    | nil => simp [List.not_mem_nil, dedupF_nil]
    | cons a t =>
      rw [List.cons_append, dedupF_cons, dedupF_cons, List.filter_append,
        ih (t.filter (· ≠ a)) (ys.filter (· ≠ a))
          (le_trans (List.length_filter_le _ _) (Nat.le_of_succ_le_succ hlen)),
        filter_ne_not_mem a t ys, List.cons_append]

theorem sortLex_sorted (l : List FileRef) : (sortLex l).Sorted (· ≤ ·) :=
  List.sorted_insertionSort _ l

theorem mem_sortLex {x : FileRef} {l : List FileRef} : x ∈ sortLex l ↔ x ∈ l :=
  List.mem_insertionSort _

theorem filter_sortLex (q : FileRef → Bool) (l : List FileRef) :
    (sortLex l).filter q = sortLex (l.filter q) := by
  apply @List.eq_of_perm_of_sorted FileRef (· ≤ · : FileRef → FileRef → Prop)
  · exact ((List.perm_insertionSort _ l).filter q).trans
      ((List.perm_insertionSort _ (l.filter q)).symm)
  · exact (sortLex_sorted l).filter q
  · exact sortLex_sorted _

theorem keyLT_shift {p : Pattern} {ps : List Pattern} {a b : FileRef}
    (ha : patMatch p a = false) (hb : patMatch p b = false) (h : keyLT ps a b) :
    keyLT (p :: ps) a b := by
  unfold keyLT firstPatIdx at *
  rw [List.findIdx_cons, List.findIdx_cons, ha, hb]
  simpa using h

theorem resolve_core (n : Nat) : ∀ (ps : List Pattern) (L : List FileRef), ps.length ≤ n →
    List.Pairwise (keyLT ps)
      (dedupF ((ps.map fun p => sortLex (L.filter (patMatch p))).flatten)) := by
  induction n with
  | zero =>
    intro ps L hlen
    have : ps = [] := List.length_eq_zero.mp (Nat.le_zero.mp hlen)
    subst this
    simp [dedupF_nil]
  | succ n ih =>
    intro ps L hlen
    cases ps with
    | nil => simp [dedupF_nil]
    | cons p ps =>
      rw [List.map_cons, List.flatten_cons,
        dedupF_append _ _ _ (le_refl (sortLex (L.filter (patMatch p))).length)]
      set b0 := sortLex (L.filter (patMatch p)) with hb0
      have hrest :
          ((ps.map fun p2 => sortLex (L.filter (patMatch p2))).flatten).filter
              (fun y => decide (y ∉ b0))
            = (ps.map fun p2 =>
                sortLex ((L.filter fun y => decide (y ∉ b0)).filter (patMatch p2))).flatten := by
        rw [List.filter_flatten, List.map_map]
        congr 1
        apply List.map_congr_left
        intro p2 hp2
        show (sortLex (L.filter (patMatch p2))).filter (fun y => decide (y ∉ b0)) = _
        rw [filter_sortLex, List.filter_filter, List.filter_filter]
        apply congrArg
        apply List.filter_congr
        intro y hy
        rw [Bool.and_comm]
      rw [hrest]
      have hmem_b0 : ∀ x ∈ dedupF b0, patMatch p x = true := by
        intro x hx
        have := mem_sortLex.mp (mem_dedupF hx)
        exact (List.mem_filter.mp this).2
      have hmem_rest : ∀ x ∈ dedupF ((ps.map fun p2 =>
          sortLex ((L.filter fun y => decide (y ∉ b0)).filter (patMatch p2))).flatten),
          patMatch p x = false := by
        intro x hx
        have hx2 := mem_dedupF hx
        rw [List.mem_flatten] at hx2
        obtain ⟨blk, hblk, hxblk⟩ := hx2
        rw [List.mem_map] at hblk
        obtain ⟨p2, hp2, rfl⟩ := hblk
        have hx3 := List.mem_filter.mp (mem_sortLex.mp hxblk)
        have hx4 := List.mem_filter.mp hx3.1
        have hnotb0 : x ∉ b0 := by simpa using hx4.2
        by_contra hmatch
        rw [Bool.not_eq_false] at hmatch
        exact hnotb0 (mem_sortLex.mpr (List.mem_filter.mpr ⟨hx4.1, hmatch⟩))
      rw [List.pairwise_append]
      refine ⟨?_, ?_, ?_⟩
      · -- within the first block: same first index 0, strictly ascending paths
        have hsorted : (dedupF b0).Sorted (· ≤ ·) :=
          List.Pairwise.sublist (dedupF_sublist b0) (sortLex_sorted _)
        have hnodup := dedupF_nodup b0
        have hlt := (hsorted.and hnodup).imp
          (fun {a b} h => lt_of_le_of_ne h.1 h.2)
        refine hlt.imp_of_mem ?_
        intro a b hma hmb hab
        right
        refine ⟨?_, hab⟩
        unfold firstPatIdx
        rw [List.findIdx_cons, List.findIdx_cons, hmem_b0 a hma, hmem_b0 b hmb]
        rfl
      · -- within the rest: shift the key by one pattern
        have hih := ih ps (L.filter fun y => decide (y ∉ b0))
          (Nat.le_of_succ_le_succ hlen)
        refine hih.imp_of_mem ?_
        intro a b hma hmb hab
        exact keyLT_shift (hmem_rest a hma) (hmem_rest b hmb) hab
      · -- across: index 0 against index ≥ 1
        intro a hma b hmb
        left
        unfold firstPatIdx
        rw [List.findIdx_cons, List.findIdx_cons, hmem_b0 a hma, hmem_rest b hmb]
        simp

/-! ### Lemmas: schema checks and step-order sensitivity -/

theorem resolve_key_sorted (ps : List Pattern) (st : Store) :
    List.Pairwise (keyLT ps) (resolve ps st) :=
  resolve_core ps.length ps (listing st) (le_refl _)

theorem resolve_nodup (ps : List Pattern) (st : Store) : (resolve ps st).Nodup :=
  dedupF_nodup _

theorem resolve_files_only (ps : List Pattern) {st1 st2 : Store}
    (h : st1.files = st2.files) : resolve ps st1 = resolve ps st2 := by
  unfold resolve listing
  rw [h]

theorem foldSteps_single {st : Store} {amb : Nat} (s : PipeState) (x : Step) :
    foldSteps st amb s [x] = applyStep st amb s x := by
  rw [foldSteps]
  cases applyStep st amb s x with
  | ok s2 => rfl
  | error e => rfl

theorem checkCols_ok_of (cols : List String) (sc : List (String × Ty))
    (h : ∀ c ∈ cols, c ∈ schemaNames sc) : checkCols cols sc = .ok () := by
  unfold checkCols
  have hfind : cols.find? (fun c => !(schemaNames sc).contains c) = none :=
    List.find?_eq_none.mpr fun x hx => by simp [h x hx]
  rw [hfind]

theorem checkCols_err (cols : List String) (sc : List (String × Ty))
    (hex : ∃ c ∈ cols, c ∉ schemaNames sc) :
    ∃ c, c ∈ cols ∧ c ∉ schemaNames sc ∧ checkCols cols sc = .error (.schemaError c) := by
  unfold checkCols
  cases hfind : cols.find? (fun c => !(schemaNames sc).contains c) with
  | none =>
    obtain ⟨c, hc, hnc⟩ := hex
    have := List.find?_eq_none.mp hfind c hc
    simp [hnc] at this
  | some c =>
    have h1 := List.find?_some hfind
    have h2 := List.mem_of_find?_eq_some hfind
    have h3 : c ∉ schemaNames sc := by
      intro hmem
      simp [hmem] at h1
    exact ⟨c, h2, h3, rfl⟩

theorem not_mem_schema_after_drop (ds : List String) (s : PipeState) {c : String}
    (hc : c ∈ ds) : c ∉ schemaNames (applyDrop ds s).schema := by
  intro hmem
  unfold applyDrop schemaNames at hmem
  rw [List.mem_map] at hmem
  obtain ⟨e, he, rfl⟩ := hmem
  have := (List.mem_filter.mp he).2
  simp [hc] at this

theorem mem_schema_of_not_dropped {ds : List String} {s : PipeState} {c : String}
    (hmem : c ∈ schemaNames s.schema) (hnd : c ∉ schemaNames (applyDrop ds s).schema) :
    c ∈ ds := by
  by_contra hcd
  apply hnd
  unfold applyDrop schemaNames at *
  rw [List.mem_map] at hmem ⊢
  obtain ⟨e, he, rfl⟩ := hmem
  exact ⟨e, List.mem_filter.mpr ⟨he, by simp [hcd]⟩, rfl⟩

/-! ### Lemmas: partition extraction on the year/month template -/

/-- The literal text of the `puYear=` template segment. -/
def yLit : Seg := 'p' :: 'u' :: 'Y' :: 'e' :: 'a' :: 'r' :: '=' :: []

/-- The literal text of the `puMonth=` template segment. -/
def mLit : Seg := 'p' :: 'u' :: 'M' :: 'o' :: 'n' :: 't' :: 'h' :: '=' :: []

/-- The parsed form of the notebook's partition format. -/
def fmtYM : PartFormat := [(yLit, "year"), (mLit, "month")]

theorem parseFormat_nyc : parseFormat nycFormat = .ok fmtYM := by rfl

theorem mapEx_forall {α β ε : Type} (f : α → Except ε β) (P : α → β → Prop) :
    ∀ (l : List α), (∀ a ∈ l, ∃ b, f a = .ok b ∧ P a b) →
      ∃ l2, mapEx f l = .ok l2 ∧ List.Forall₂ P l l2 := by
  intro l
  induction l with
  | nil => exact fun _ => ⟨[], rfl, .nil⟩
  | cons a t ih =>
    intro H
    obtain ⟨b, hb, hP⟩ := H a (by simp)
    obtain ⟨l2, hl2, hF⟩ := ih fun x hx => H x (by simp [hx])
    exact ⟨b :: l2, by simp [mapEx, hb, hl2], .cons hP hF⟩

theorem forall₂_mem_right {α β : Type} {P : α → β → Prop} :
    ∀ {l : List α} {l2 : List β}, List.Forall₂ P l l2 → ∀ b ∈ l2, ∃ a ∈ l, P a b := by
  intro l l2 h
  induction h with
  | nil => simp
  | cons hP hF ih =>
    intro b hb
    rcases List.mem_cons.mp hb with rfl | hb2
    · exact ⟨_, by simp, hP⟩
    · obtain ⟨a, ha, hPa⟩ := ih b hb2
      exact ⟨a, by simp [ha], hPa⟩

theorem forall₂_map_right {α β γ : Type} {P : α → β → Prop} (g : β → γ) :
    ∀ {l : List α} {l2 : List β}, List.Forall₂ P l l2 →
      List.Forall₂ (fun a c => ∃ b, P a b ∧ c = g b) l (l2.map g) := by
  intro l l2 h
  induction h with
  | nil => exact .nil
  | cons hP hF ih => exact .cons ⟨_, hP, rfl⟩ ih

theorem parseIntStr_natToChars (y : Nat) :
    parseIntStr (String.mk (natToChars y)) = some ((y : Int)) := by
  unfold parseIntStr
  rw [data_mk]
  have h := parseIntChars_print ((y : Int)) [] trivial
  have habs : ((y : Int)).natAbs = y := by omega
  rw [intToChars, if_neg (by omega), habs, List.append_nil] at h
  rw [h]

theorem partValue_nat (y : Nat) :
    partValue .int (String.mk (natToChars y)) = .int ((y : Int)) := by
  unfold partValue
  rw [parseIntStr_natToChars]

theorem matchFormat_shape (pre : List Seg) (y m : Nat) (fname : Seg) :
    matchFormat fmtYM (pre ++ [yLit ++ natToChars y, mLit ++ natToChars m, fname])
      = some [("year", String.mk (natToChars y)), ("month", String.mk (natToChars m))] := by
  unfold matchFormat
  have hd : (pre ++ [yLit ++ natToChars y, mLit ++ natToChars m, fname]).dropLast
      = (pre ++ [yLit ++ natToChars y, mLit ++ natToChars m]) := by
    rw [show pre ++ [yLit ++ natToChars y, mLit ++ natToChars m, fname]
        = (pre ++ [yLit ++ natToChars y, mLit ++ natToChars m]) ++ [fname] by simp,
      List.dropLast_concat]
  rw [hd]
  have hlen : fmtYM.length ≤ (pre ++ [yLit ++ natToChars y, mLit ++ natToChars m]).length := by
    simp [fmtYM]
  rw [if_pos hlen]
  have hdropn : (pre ++ [yLit ++ natToChars y, mLit ++ natToChars m]).length - fmtYM.length
      = pre.length := by
    simp [fmtYM]
  rw [hdropn, show (pre ++ [yLit ++ natToChars y, mLit ++ natToChars m])
      = pre ++ ([yLit ++ natToChars y, mLit ++ natToChars m]) from rfl,
    List.drop_left]
  show matchSegs fmtYM _ = _
  unfold fmtYM matchSegs
  rw [if_pos (List.isPrefixOf_iff_prefix.mpr (List.prefix_append yLit (natToChars y)))]
  unfold matchSegs
  rw [if_pos (List.isPrefixOf_iff_prefix.mpr (List.prefix_append mLit (natToChars m)))]
  simp only [matchSegs, Option.map_some']
  rw [show (yLit ++ natToChars y).drop yLit.length = natToChars y from List.drop_left _ _,
    show (mLit ++ natToChars m).drop mLit.length = natToChars m from List.drop_left _ _]

theorem applyExtract_ym (s : PipeState)
    (H : ∀ fr ∈ s.rows, ∃ (pre : List Seg) (y m : Nat) (fname : Seg),
      fr.1 = pre ++ [yLit ++ natToChars y, mLit ++ natToChars m, fname]) :
    ∃ s2, applyExtract fmtYM s = .ok s2 ∧
      s2.schema = s.schema ++ [("year", Ty.int), ("month", Ty.int)] ∧
      List.Forall₂ (fun fr fr2 => ∃ (y m : Nat) (pre : List Seg) (fname : Seg),
          fr.1 = pre ++ [yLit ++ natToChars y, mLit ++ natToChars m, fname] ∧
          fr2 = (fr.1, fr.2 ++ [("year", Value.int ((y : Int))), ("month", Value.int ((m : Int)))]))
        s.rows s2.rows := by
  have Htag : ∀ fr ∈ s.rows, ∃ tp, tagRow fmtYM fr = .ok tp ∧
      (∃ (y m : Nat) (pre : List Seg) (fname : Seg),
        fr.1 = pre ++ [yLit ++ natToChars y, mLit ++ natToChars m, fname] ∧
        tp = (fr, [("year", String.mk (natToChars y)), ("month", String.mk (natToChars m))])) := by
    intro fr hfr
    obtain ⟨pre, y, m, fname, hshape⟩ := H fr hfr
    refine ⟨(fr, [("year", String.mk (natToChars y)), ("month", String.mk (natToChars m))]),
      ?_, y, m, pre, fname, hshape, rfl⟩
    unfold tagRow
    rw [hshape, matchFormat_shape]
  obtain ⟨tagged, htag, hF⟩ := mapEx_forall (tagRow fmtYM) _ s.rows Htag
  have hcap : ∀ ps ∈ tagged.map (fun t => t.2), ∃ (y m : Nat),
      ps = [("year", String.mk (natToChars y)), ("month", String.mk (natToChars m))] := by
    intro ps hps
    rw [List.mem_map] at hps
    obtain ⟨t, ht, rfl⟩ := hps
    obtain ⟨fr, hfr, hP⟩ := forall₂_mem_right hF t ht
    obtain ⟨y, m, pre, fname, hshape, htp⟩ := hP
    exact ⟨y, m, by rw [htp]⟩
  have hty : ∀ j, j < 2 → inferPartTy (tagged.map (fun t => t.2)) j = .int := by
    intro j hj
    have hall : ((tagged.map fun t => t.2).all fun ps =>
        match ps.get? j with
        | some e => (parseIntStr e.2).isSome
        | none => false) = true := by
      rw [List.all_eq_true]
      intro ps hps
      obtain ⟨y, m, hps2⟩ := hcap ps hps
      subst hps2
      interval_cases j
      · simp [parseIntStr_natToChars]
      · simp [parseIntStr_natToChars]
    unfold inferPartTy
    rw [if_pos hall]
  have happly : applyExtract fmtYM s = .ok
      { schema := s.schema ++ (fmtYM.zip ((List.range fmtYM.length).map
          (inferPartTy (tagged.map fun t => t.2)))).map (fun e => (e.1.2, e.2)),
        rows := tagged.map fun t => (t.1.1, t.1.2 ++ (t.2.zip ((List.range fmtYM.length).map
          (inferPartTy (tagged.map fun t => t.2)))).map fun e => (e.1.1, partValue e.2 e.1.2)) } := by
    simp only [applyExtract]
    rw [htag]
  have htys : (List.range fmtYM.length).map (inferPartTy (tagged.map fun t => t.2))
      = [Ty.int, Ty.int] := by
    show [inferPartTy (tagged.map fun t => t.2) 0, inferPartTy (tagged.map fun t => t.2) 1]
      = [Ty.int, Ty.int]
    rw [hty 0 (by omega), hty 1 (by omega)]
  rw [htys] at happly
  refine ⟨_, happly, rfl, ?_⟩
  have hmap := forall₂_map_right (fun t => (t.1.1, t.1.2 ++
    (t.2.zip ([Ty.int, Ty.int])).map fun e => (e.1.1, partValue e.2 e.1.2))) hF
  refine hmap.imp ?_
  intro fr c hc
  obtain ⟨t, hP, rfl⟩ := hc
  obtain ⟨y, m, pre, fname, hshape, rfl⟩ := hP
  refine ⟨y, m, pre, fname, hshape, ?_⟩
  simp [partValue_nat]

/-! ## Claim theorems -/

/-- C1: for every constructible step list S (one the builder API can produce,
so every random-sample step carries a probability in (0,1]), deserializing the
serialization of S yields S exactly; consequently save followed by load
reconstructs a Table whose step list equals the original Table's step list. -/
theorem C1_serialize_roundtrip :
    (∀ steps : List Step, WFSteps steps → deserialize (serialize steps) = .ok steps) ∧
    (∀ (t : Table) (dir : String) (fs : FS), WFSteps t.steps →
      fs.files.lookup (stripSlash dir.data ++ mlTableFile) = none →
      ∃ fs2 t2, Table.save t dir fs = .ok fs2 ∧ load dir fs2 = .ok t2 ∧
        t2.steps = t.steps) := by
  constructor
  · exact deserialize_serialize
  · intro t dir fs hwf hfree
    obtain ⟨fs2, hsave, hlook, hdir, hload⟩ := load_after_save t dir fs hwf hfree
    exact ⟨fs2, t, hsave, hload dir rfl, rfl⟩

/-- A small constructible step list exercising every step kind. -/
def c1Steps : List Step :=
  [Step.readFiles [[['a'], ['*']]],
   Step.randomSample (mkRat 1 2) (some 7),
   Step.filter (.cmp .gt (.col ("d")) (.lit (.int 0))),
   Step.dropColumns ["x"],
   Step.selectColumns ["d"],
   Step.extractPartitionColumns [(yLit, "year")],
   Step.convertColumnTypes [("d", Ty.float)]]

theorem C1_serialize_roundtrip_witness :
    WFSteps c1Steps ∧ deserialize (serialize c1Steps) = .ok c1Steps :=
  ⟨by decide, C1_serialize_roundtrip.1 c1Steps (by decide)⟩

/-- C2: for the Table built by the notebook's end-to-end chain (five yearly
patterns, sample at probability 0.001 with seed 735, filter tripDistance > 0,
drop three named columns, extract year/month from the partition format),
materializing the Table reloaded from its saved artifact produces a result
row-for-row identical to materializing the pre-save Table against the same
unchanged source. -/
theorem C2_end_to_end :
    ∀ t : Table, buildNyc = .ok t →
    ∀ (dir : String) (fs : FS) (st : Store) (amb : Nat),
      fs.files.lookup (stripSlash dir.data ++ mlTableFile) = none →
      ∃ fs2 t2, Table.save t dir fs = .ok fs2 ∧ load dir fs2 = .ok t2 ∧
        materialize t2 st amb = materialize t st amb := by
  intro t hbuild dir fs st amb hfree
  have hwf := buildNyc_WF t hbuild
  obtain ⟨fs2, hsave, hlook, hdir, hload⟩ := load_after_save t dir fs hwf hfree
  exact ⟨fs2, t, hsave, hload dir rfl, rfl⟩

theorem C2_end_to_end_witness :
    ∃ t fs2 t2, buildNyc = Except.ok t ∧
      Table.save t ("./nyc_taxi") ⟨[], []⟩ = .ok fs2 ∧
      load ("./nyc_taxi") fs2 = .ok t2 ∧
      materialize t2 ⟨[], []⟩ 0 = materialize t ⟨[], []⟩ 0 := by
  obtain ⟨fs2, t2, h1, h2, h3⟩ :=
    C2_end_to_end _ rfl ("./nyc_taxi") ⟨[], []⟩ ⟨[], []⟩ 0 rfl
  exact ⟨_, fs2, t2, rfl, h1, h2, h3⟩

/-- C3: materialization is deterministic across calls — for a Table whose
random-sample steps all carry a fixed seed, materializing twice against the
same unchanging source yields the same result, whatever the per-call ambient
entropy is, because the generator is seeded once per materialization from the
step's seed. -/
theorem C3_determinism :
    ∀ (t : Table) (st : Store) (a1 a2 : Nat),
      (∀ s ∈ t.steps, seeded s) →
      materialize t st a1 = materialize t st a2 := by
  intro t st a1 a2 h
  unfold materialize
  rw [foldSteps_amb t.steps h]

/-- The step list of a table that samples with a fixed seed. -/
def c3Steps : List Step :=
  [Step.readFiles [[['f']]], Step.randomSample (mkRat 1 2) (some 735)]

theorem C3_determinism_witness :
    (∀ s ∈ c3Steps, seeded s) ∧
    materialize ⟨c3Steps⟩ ⟨[], []⟩ 0 = materialize ⟨c3Steps⟩ ⟨[], []⟩ 1 :=
  ⟨by decide, C3_determinism ⟨c3Steps⟩ ⟨[], []⟩ 0 1 (by decide)⟩

/-- C4: every transformation operation returns a new Table handle whose step
list is the receiver's with one step appended — never the receiver itself —
and the receiver's step list is untouched (the operations are pure functions
of an immutable handle). -/
theorem C4_immutability :
    (∀ (t : Table) (e : Expr),
      (t.filter e).steps = t.steps ++ [Step.filter e] ∧ (t.filter e).steps ≠ t.steps) ∧
    (∀ (t : Table) (ns : List String),
      (t.drop_columns ns).steps = t.steps ++ [Step.dropColumns ns] ∧
        (t.drop_columns ns).steps ≠ t.steps) ∧
    (∀ (t : Table) (ns : List String),
      (t.select_columns ns).steps = t.steps ++ [Step.selectColumns ns] ∧
        (t.select_columns ns).steps ≠ t.steps) ∧
    (∀ (t : Table) (m : List (String × Ty)),
      (t.convert_column_types m).steps = t.steps ++ [Step.convertColumnTypes m] ∧
        (t.convert_column_types m).steps ≠ t.steps) ∧
    (∀ (t : Table) (p : Rat) (seed : Option Int), 0 < p → p ≤ 1 →
      t.take_random_sample p seed = .ok ⟨t.steps ++ [Step.randomSample p seed]⟩ ∧
        t.steps ++ [Step.randomSample p seed] ≠ t.steps) ∧
    (∀ (t : Table) (fmt : String) (f : PartFormat), parseFormat fmt = .ok f →
      t.extract_columns_from_partition_format fmt
          = .ok ⟨t.steps ++ [Step.extractPartitionColumns f]⟩ ∧
        t.steps ++ [Step.extractPartitionColumns f] ≠ t.steps) := by
  have hne : ∀ (l : List Step) (a : Step), l ++ [a] ≠ l := by
    intro l a h
    have := congrArg List.length h
    simp at this
  refine ⟨fun t e => ⟨rfl, hne _ _⟩, fun t ns => ⟨rfl, hne _ _⟩,
    fun t ns => ⟨rfl, hne _ _⟩, fun t m => ⟨rfl, hne _ _⟩, ?_, ?_⟩
  · intro t p seed h0 h1
    refine ⟨?_, hne _ _⟩
    rw [Table.take_random_sample, if_neg (by push_neg; exact ⟨h0, h1⟩)]
  · intro t fmt f hf
    refine ⟨?_, hne _ _⟩
    unfold Table.extract_columns_from_partition_format
    rw [hf]

theorem C4_immutability_witness :
    (Table.take_random_sample ⟨[]⟩ (mkRat 1 1000) (some 735)
        = .ok ⟨[] ++ [Step.randomSample (mkRat 1 1000) (some 735)]⟩ ∧
      [] ++ [Step.randomSample (mkRat 1 1000) (some 735)] ≠ ([] : List Step)) ∧
    (Table.extract_columns_from_partition_format ⟨[]⟩ nycFormat
        = .ok ⟨[] ++ [Step.extractPartitionColumns fmtYM]⟩ ∧
      [] ++ [Step.extractPartitionColumns fmtYM] ≠ ([] : List Step)) :=
  ⟨C4_immutability.2.2.2.2.1 ⟨[]⟩ (mkRat 1 1000) (some 735) (by decide) (by decide),
   C4_immutability.2.2.2.2.2 ⟨[]⟩ nycFormat fmtYM parseFormat_nyc⟩

/-- C7: `take_random_sample` validates its probability at call time — any
probability outside (0,1] fails immediately with `BadProbability`, any
probability inside succeeds — and a sample step with probability 1 selects all
rows: materializing with it appended equals materializing without it. -/
theorem C7_probability_validation :
    (∀ (t : Table) (p : Rat) (seed : Option Int), p ≤ 0 ∨ 1 < p →
      t.take_random_sample p seed = .error .badProbability) ∧
    (∀ (t : Table) (p : Rat) (seed : Option Int), 0 < p → p ≤ 1 →
      t.take_random_sample p seed = .ok ⟨t.steps ++ [Step.randomSample p seed]⟩) ∧
    (∀ (t : Table) (st : Store) (amb : Nat) (seed : Option Int),
      materialize ⟨t.steps ++ [Step.randomSample 1 seed]⟩ st amb
        = materialize t st amb) := by
  refine ⟨?_, ?_, ?_⟩
  · intro t p seed h
    rw [Table.take_random_sample, if_pos h]
  · intro t p seed h0 h1
    rw [Table.take_random_sample, if_neg (by push_neg; exact ⟨h0, h1⟩)]
  · intro t st amb seed
    unfold materialize
    show (foldSteps st amb ⟨[], []⟩ (t.steps ++ [Step.randomSample 1 seed])).map _ = _
    rw [foldSteps_append]
    cases hfs : foldSteps st amb ⟨[], []⟩ t.steps with
    | error e => rfl
    | ok s1 =>
      rw [show (match Except.ok s1 with
            | Except.ok s2 => foldSteps st amb s2 [Step.randomSample 1 seed]
            | Except.error e => Except.error e)
          = foldSteps st amb s1 [Step.randomSample 1 seed] from rfl,
        foldSteps_single, applyStep_sample_one]

theorem C7_probability_validation_witness :
    (Table.take_random_sample ⟨[]⟩ 2 none = .error .badProbability) ∧
    (Table.take_random_sample ⟨[]⟩ 0 none = .error .badProbability) ∧
    (Table.take_random_sample ⟨[]⟩ (mkRat 1 1000) none
      = .ok ⟨[] ++ [Step.randomSample (mkRat 1 1000) none]⟩) ∧
    materialize ⟨([Step.readFiles [[['f']]]] : List Step) ++ [Step.randomSample 1 none]⟩
        ⟨[("c", Ty.int)], [([['f']], [[("c", Value.int 1)]])]⟩ 0
      = materialize ⟨[Step.readFiles [[['f']]]]⟩
        ⟨[("c", Ty.int)], [([['f']], [[("c", Value.int 1)]])]⟩ 0 :=
  ⟨C7_probability_validation.1 ⟨[]⟩ 2 none (by decide),
   C7_probability_validation.1 ⟨[]⟩ 0 none (by decide),
   C7_probability_validation.2.1 ⟨[]⟩ (mkRat 1 1000) none (by decide) (by decide),
   C7_probability_validation.2.2 ⟨[Step.readFiles [[['f']]]]⟩
     ⟨[("c", Ty.int)], [([['f']], [[("c", Value.int 1)]])]⟩ 0 none⟩

/-- C8: source resolution is deterministic — it depends only on the backing
store's file listing — and its output is deduplicated and strictly ordered by
(first matching pattern index, lexicographic path). -/
theorem C8_resolution_order :
    (∀ (ps : List Pattern) (st1 st2 : Store), st1.files = st2.files →
      resolve ps st1 = resolve ps st2) ∧
    (∀ (ps : List Pattern) (st : Store), (resolve ps st).Nodup) ∧
    (∀ (ps : List Pattern) (st : Store), List.Pairwise (keyLT ps) (resolve ps st)) :=
  ⟨fun ps _ _ h => resolve_files_only ps h, resolve_nodup, resolve_key_sorted⟩

theorem C8_resolution_order_witness :
    resolve [[['f']]] ⟨[("a", Ty.int)], [([['f']], [])]⟩
      = resolve [[['f']]] ⟨[], [([['f']], [])]⟩ :=
  C8_resolution_order.1 [[['f']]] ⟨[("a", Ty.int)], [([['f']], [])]⟩ ⟨[], [([['f']], [])]⟩ rfl

/-- C9: deserialization rejects an artifact containing a step whose kind is
unrecognized with `InvalidArtifact` naming the offending key; unknown keys at
the top level of the artifact are tolerated and ignored; unknown keys inside a
recognized step cause rejection, again naming the key. -/
theorem C9_artifact_validation :
    (∀ (k : String) (v : Yaml) (es : List (String × Yaml)), k ≠ "steps" →
      deserializeSteps (.map ((k, v) :: es)) = deserializeSteps (.map es)) ∧
    (∀ (k : String) (args : Yaml),
      k ∉ (["read_files", "take_random_sample", "filter", "drop_columns", "select_columns",
        "extract_columns_from_partition_format", "convert_column_types"] : List String) →
      deserialize (String.mk (printYaml (.map [("steps", .arr [.map [(k, args)]])])))
        = .error (.invalidArtifact k)) ∧
    (∀ (es : List (String × Yaml)) (k : String) (v : Yaml),
      (∀ e ∈ es, e.1 ∈ (["probability", "seed"] : List String)) →
      k ∉ (["probability", "seed"] : List String) →
      stepOfYaml (.map [("take_random_sample", .map (es ++ [(k, v)]))])
        = .error (.invalidArtifact k)) := by
  refine ⟨deserializeSteps_extra_key, ?_, ?_⟩
  · intro k args h
    rw [deserialize_print]
    simp only [List.mem_cons, List.not_mem_nil, or_false, not_or] at h
    obtain ⟨h1, h2, h3, h4, h5, h6, h7⟩ := h
    exact deserializeSteps_unknown_kind k args h1 h2 h3 h4 h5 h6 h7
  · intro es k v hes hk
    show sampleOfYaml (.map (es ++ [(k, v)])) = .error (.invalidArtifact k)
    exact sampleOfYaml_unknown_key es k v hes hk

theorem C9_artifact_validation_witness :
    (deserializeSteps (.map (("custom_metadata", .bool true)
        :: [("steps", Yaml.arr [])]))
      = deserializeSteps (.map [("steps", Yaml.arr [])])) ∧
    (deserialize (String.mk (printYaml
        (.map [("steps", .arr [.map [("sort_rows", Yaml.map [])]])])))
      = .error (.invalidArtifact ("sort_rows"))) ∧
    (stepOfYaml (.map [("take_random_sample", .map ([] ++ [("mode", Yaml.str ("x"))]))])
      = .error (.invalidArtifact ("mode"))) :=
  ⟨C9_artifact_validation.1 ("custom_metadata") (.bool true) [("steps", Yaml.arr [])]
      (by decide),
   C9_artifact_validation.2.1 ("sort_rows") (Yaml.map []) (by decide),
   C9_artifact_validation.2.2 [] ("mode") (Yaml.str ("x")) (by simp) (by decide)⟩

/-- C10: `save(dir)` writes the artifact as a single text file named exactly
`MLTable` directly inside the target directory, creating the directory entry
if absent; that file's text is the serialized step list, and `load` applied to
the same directory path — with or without a trailing slash — reads exactly
that file and reconstructs the Table. -/
theorem C10_save_load_layout :
    ∀ (t : Table) (dir : String) (fs : FS), WFSteps t.steps →
      dir.data.getLast? ≠ some '/' →
      fs.files.lookup (dir.data ++ mlTableFile) = none →
      ∃ fs2, Table.save t dir fs = .ok fs2 ∧
        fs2.files.lookup (dir.data ++ mlTableFile) = some (serialize t.steps) ∧
        dir.data ∈ fs2.dirs ∧
        load dir fs2 = .ok t ∧
        load (dir ++ ("/" : String)) fs2 = .ok t := by
  intro t dir fs hwf hnoslash hfree
  have hstrip : stripSlash dir.data = dir.data := stripSlash_no _ hnoslash
  have hfree2 : fs.files.lookup (stripSlash dir.data ++ mlTableFile) = none := by
    rw [hstrip]
    exact hfree
  obtain ⟨fs2, hsave, hlook, hdir, hload⟩ := load_after_save t dir fs hwf hfree2
  rw [hstrip] at hlook hdir
  refine ⟨fs2, hsave, hlook, hdir, hload dir rfl, ?_⟩
  apply hload
  show stripSlash (dir ++ ("/" : String)).data = stripSlash dir.data
  rw [show (dir ++ ("/" : String)).data = dir.data ++ ['/'] from rfl,
    stripSlash_concat, hstrip]

theorem C10_save_load_layout_witness :
    ∃ fs2, Table.save ⟨c1Steps⟩ ("./nyc_taxi") ⟨[], []⟩ = .ok fs2 ∧
      fs2.files.lookup (("./nyc_taxi").data ++ mlTableFile) = some (serialize c1Steps) ∧
      ("./nyc_taxi").data ∈ fs2.dirs ∧
      load ("./nyc_taxi") fs2 = .ok ⟨c1Steps⟩ ∧
      load (("./nyc_taxi") ++ ("/" : String)) fs2 = .ok ⟨c1Steps⟩ :=
  C10_save_load_layout ⟨c1Steps⟩ ("./nyc_taxi") ⟨[], []⟩ (by decide) (by decide) rfl

/-- C5: step order is semantically significant and schema-dependent validation
is deferred to materialization.  The `drop_columns` and `filter` calls
themselves never raise (they only append a step); with the predicate's columns
present in the schema and at least one of them dropped, dropping before
filtering makes materialization fail with `SchemaError` naming a predicate
column, while filtering before dropping passes the filter's schema check and
cannot fail for that reason — if the filter-first pipeline materializes, so
does the pipeline with the drop appended. -/
theorem C5_order_sensitivity :
    ∀ (base : List Step) (ds : List String) (e : Expr) (st : Store) (amb : Nat)
      (s0 : PipeState),
      foldSteps st amb ⟨[], []⟩ base = .ok s0 →
      (∀ c ∈ exprCols e, c ∈ schemaNames s0.schema) →
      (∃ c ∈ exprCols e, c ∈ ds) →
      ((Table.mk base).drop_columns ds).steps = base ++ [Step.dropColumns ds] ∧
      ((Table.mk base).filter e).steps = base ++ [Step.filter e] ∧
      (∃ c, c ∈ exprCols e ∧ c ∈ ds ∧
        materialize ⟨base ++ [Step.dropColumns ds, Step.filter e]⟩ st amb
          = .error (.schemaError c)) ∧
      checkCols (exprCols e) s0.schema = .ok () ∧
      (∀ mt, materialize ⟨base ++ [Step.filter e]⟩ st amb = .ok mt →
        ∃ mt2, materialize ⟨base ++ [Step.filter e, Step.dropColumns ds]⟩ st amb
          = .ok mt2) := by
  intro base ds e st amb s0 hbase hcols hinter
  refine ⟨rfl, rfl, ?_, checkCols_ok_of _ _ hcols, ?_⟩
  · obtain ⟨c0, hc0e, hc0d⟩ := hinter
    have hex : ∃ c ∈ exprCols e, c ∉ schemaNames (applyDrop ds s0).schema :=
      ⟨c0, hc0e, not_mem_schema_after_drop ds s0 hc0d⟩
    obtain ⟨c, hce, hcn, hchk⟩ := checkCols_err (exprCols e) (applyDrop ds s0).schema hex
    have hcd : c ∈ ds := mem_schema_of_not_dropped (hcols c hce) hcn
    refine ⟨c, hce, hcd, ?_⟩
    have h1 : foldSteps st amb s0 [Step.dropColumns ds, Step.filter e]
        = .error (.schemaError c) := by
      rw [show foldSteps st amb s0 [Step.dropColumns ds, Step.filter e]
          = foldSteps st amb (applyDrop ds s0) [Step.filter e] from rfl,
        foldSteps_single]
      show (match checkCols (exprCols e) (applyDrop ds s0).schema with
            | .error er => Except.error er
            | .ok _ =>
              match filterRows e (applyDrop ds s0).rows with
              | .ok rows => Except.ok (⟨(applyDrop ds s0).schema, rows⟩ : PipeState)
              | .error er => .error er)
          = Except.error (Err.schemaError c)
      rw [hchk]
    have h2 : materialize ⟨base ++ [Step.dropColumns ds, Step.filter e]⟩ st amb
        = (foldSteps st amb s0 [Step.dropColumns ds, Step.filter e]).map
          fun s => (⟨s.schema, s.rows.map (·.2)⟩ : MatTable) := by
      unfold materialize
      rw [foldSteps_append, hbase]
    rw [h2, h1]
    rfl
  · intro mt hmt
    unfold materialize at hmt ⊢
    cases hfs : foldSteps st amb ⟨[], []⟩ (base ++ [Step.filter e]) with
    | error er =>
      rw [hfs] at hmt
      exact absurd hmt (by simp [Except.map])
    | ok s1 =>
      refine ⟨⟨(applyDrop ds s1).schema, (applyDrop ds s1).rows.map (·.2)⟩, ?_⟩
      rw [show base ++ [Step.filter e, Step.dropColumns ds]
          = (base ++ [Step.filter e]) ++ [Step.dropColumns ds] by simp,
        foldSteps_append, hfs]
      rfl

/-- The pipe state produced by extracting the year/month partition columns
over an empty row set: the schema gains the two integer columns. -/
def c5Base : List Step := [Step.extractPartitionColumns fmtYM]

theorem C5_order_sensitivity_witness :
    ((Table.mk c5Base).drop_columns ["year"]).steps = c5Base ++ [Step.dropColumns ["year"]] ∧
    ((Table.mk c5Base).filter (.cmp .gt (.col ("year")) (.lit (.int 0)))).steps
      = c5Base ++ [Step.filter (.cmp .gt (.col ("year")) (.lit (.int 0)))] ∧
    (∃ c, c ∈ exprCols (.cmp .gt (.col ("year")) (.lit (.int 0))) ∧ c ∈ ["year"] ∧
      materialize ⟨c5Base ++ [Step.dropColumns ["year"],
          Step.filter (.cmp .gt (.col ("year")) (.lit (.int 0)))]⟩ ⟨[], []⟩ 0
        = .error (.schemaError c)) ∧
    checkCols (exprCols (.cmp .gt (.col ("year")) (.lit (.int 0))))
      (⟨[("year", Ty.int), ("month", Ty.int)], []⟩ : PipeState).schema = .ok () ∧
    (∀ mt, materialize ⟨c5Base ++ [Step.filter (.cmp .gt (.col ("year")) (.lit (.int 0)))]⟩
        ⟨[], []⟩ 0 = .ok mt →
      ∃ mt2, materialize ⟨c5Base ++ [Step.filter (.cmp .gt (.col ("year")) (.lit (.int 0))),
        Step.dropColumns ["year"]]⟩ ⟨[], []⟩ 0 = .ok mt2) :=
  C5_order_sensitivity c5Base ["year"] (.cmp .gt (.col ("year")) (.lit (.int 0)))
    ⟨[], []⟩ 0 ⟨[("year", Ty.int), ("month", Ty.int)], []⟩
    rfl (by decide) (by decide)

/-- C6: for files resolved under the partition template
`/puYear={year}/puMonth={month}`, extraction adds `year` and `month` columns
to the materialized table whose values are exactly the captured path segments
of each row's originating file, and because every captured value parses as an
integer both columns are integer-typed. -/
theorem C6_partition_columns :
    ∀ (base : List Step) (st : Store) (amb : Nat) (s0 : PipeState),
      foldSteps st amb ⟨[], []⟩ base = .ok s0 →
      (∀ fr ∈ s0.rows, ∃ (pre : List Seg) (y m : Nat) (fname : Seg),
        fr.1 = pre ++ [yLit ++ natToChars y, mLit ++ natToChars m, fname]) →
      ∃ s2 : PipeState, materialize ⟨base ++ [Step.extractPartitionColumns fmtYM]⟩ st amb
          = .ok ⟨s2.schema, s2.rows.map (·.2)⟩ ∧
        s2.schema = s0.schema ++ [("year", Ty.int), ("month", Ty.int)] ∧
        List.Forall₂ (fun fr fr2 => ∃ (y m : Nat) (pre : List Seg) (fname : Seg),
            fr.1 = pre ++ [yLit ++ natToChars y, mLit ++ natToChars m, fname] ∧
            fr2 = (fr.1, fr.2 ++ [("year", Value.int ((y : Int))),
              ("month", Value.int ((m : Int)))]))
          s0.rows s2.rows := by
  intro base st amb s0 hbase H
  obtain ⟨s2, hexval, hsch, hF⟩ := applyExtract_ym s0 H
  refine ⟨s2, ?_, hsch, hF⟩
  unfold materialize
  rw [foldSteps_append, hbase]
  have hstep : foldSteps st amb s0 [Step.extractPartitionColumns fmtYM] = .ok s2 := by
    rw [foldSteps_single]
    exact hexval
  rw [show (match Except.ok s0 with
        | Except.ok s1 => foldSteps st amb s1 [Step.extractPartitionColumns fmtYM]
        | Except.error e => Except.error e)
      = foldSteps st amb s0 [Step.extractPartitionColumns fmtYM] from rfl, hstep]
  rfl

theorem natToChars_five : natToChars 5 = ['5'] := by
  simp [natToChars, natToCharsAux, digitChar]

theorem natToChars_one : natToChars 1 = ['1'] := by
  simp [natToChars, natToCharsAux, digitChar]

/-- A one-file store whose path carries `puYear=5/puMonth=1` partition
segments. -/
def c6Ref : FileRef := [['g'], yLit ++ ['5'], mLit ++ ['1'], ['p']]

/-- The data held by the single file of the partition-extraction witness. -/
def c6Store : Store := ⟨[("c", Ty.int)], [(c6Ref, [[("c", Value.int 7)]])]⟩

/-- The state after reading the witness store's single file. -/
def c6State : PipeState := ⟨[("c", Ty.int)], [(c6Ref, [("c", Value.int 7)])]⟩

theorem C6_partition_columns_witness :
    ∃ s2 : PipeState,
      materialize ⟨[Step.readFiles [c6Ref]] ++ [Step.extractPartitionColumns fmtYM]⟩
          c6Store 0 = .ok ⟨s2.schema, s2.rows.map (·.2)⟩ ∧
      s2.schema = c6State.schema ++ [("year", Ty.int), ("month", Ty.int)] ∧
      List.Forall₂ (fun fr fr2 => ∃ (y m : Nat) (pre : List Seg) (fname : Seg),
          fr.1 = pre ++ [yLit ++ natToChars y, mLit ++ natToChars m, fname] ∧
          fr2 = (fr.1, fr.2 ++ [("year", Value.int ((y : Int))),
            ("month", Value.int ((m : Int)))]))
        c6State.rows s2.rows :=
  C6_partition_columns [Step.readFiles [c6Ref]] c6Store 0 c6State rfl
    (by
      intro fr hfr
      rw [show c6State.rows = [(c6Ref, [("c", Value.int 7)])] from rfl,
        List.mem_singleton] at hfr
      subst hfr
      refine ⟨[['g']], 5, 1, ['p'], ?_⟩
      rw [natToChars_five, natToChars_one]
      rfl)

end MLT
